import Mathlib

set_option maxRecDepth 8000

/-!
Verification of the grid-pathfinding core of the `ai-games` repository
(`snake3.py`, `wumpus3.py`, `wumpus4.py`).

The Python sources are shallowly embedded: grids become total functions
from integer coordinates to an entity kind, the Python dictionaries become
association lists, the `random` draws become injected streams, and the
unbounded `while` loops become fuel-indexed recursions whose fuel is proved
sufficient (or, for the A* loop of `wumpus4.py`, a well-founded recursion).
All definitions follow the corresponding Python functions line by line;
the few places where the embedding exposes locals (e.g. the placement
lists of `generate_grid`) are noted in the doc comments.
-/

/-- Entity kinds stored in the grid cells.  The Python sources use the
string constants `"A" "W" "G" "P" "_" "T" "O" "X" "TP"`; the embedding
uses one constructor per constant, with the same names. -/
inductive Entity : Type
  | AGENT
  | WUMPUS
  | GOLD
  | PIT
  | EMPTY
  | TRAIL
  | OBSTACLE
  | TRAP
  | TELEPORT
  deriving DecidableEq

open Entity

/-- A grid coordinate `(row, col)`, an arbitrary pair of integers exactly as
Python tuples of ints. -/
abbrev Cell : Type := Int × Int

/-- A grid: total assignment of an entity to every integer coordinate.
Python's `grid[r][c]` list-of-lists is only ever indexed after a bounds
check, so a total function is a faithful model of the read accesses. -/
abbrev Grid : Type := Int → Int → Entity

/-- Read a grid cell (`grid[c[0]][c[1]]` in the source). -/
def gget (g : Grid) (c : Cell) : Entity := g c.1 c.2

/-- Write a grid cell (`grid[c[0]][c[1]] = e` in the source). -/
def gset (g : Grid) (c : Cell) (e : Entity) : Grid :=
  fun x y => if x = c.1 ∧ y = c.2 then e else g x y

/-- Bounds check `0 <= r < n and 0 <= c < n` from the sources. -/
def inB (n : Nat) (c : Cell) : Prop :=
  0 ≤ c.1 ∧ c.1 < (n : Int) ∧ 0 ≤ c.2 ∧ c.2 < (n : Int)

instance (n : Nat) (c : Cell) : Decidable (inB n c) := by
  unfold inB; infer_instance

/-- The global grid size constant of `wumpus3.py`/`wumpus4.py`
(`GRID_SIZE = 10`).  The algorithm embeddings take the size as an
explicit parameter `n`; the source always instantiates it with this
constant. -/
def GRID_SIZE : Nat := 10

/-! ## wumpus3.py : `bfs_search` -/

/-- Neighbour offsets of `bfs_search` in `wumpus3.py`, in source order
`[(-1, 0), (1, 0), (0, -1), (0, 1)]`. -/
def w3_dirs : List (Int × Int) := [(-1, 0), (1, 0), (0, -1), (0, 1)]

/-- The passability test of `wumpus3.py`'s `bfs_search`:
`grid[nx][ny] != PIT and grid[nx][ny] != WUMPUS`. -/
def w3_passable (g : Grid) (c : Cell) : Prop :=
  gget g c ≠ PIT ∧ gget g c ≠ WUMPUS

instance (g : Grid) (c : Cell) : Decidable (w3_passable g c) := by
  unfold w3_passable; infer_instance

/-- The neighbours `bfs_search` enqueues from a popped cell: the four
offsets in source order, kept when in bounds and passable. -/
def w3_neighbors (n : Nat) (g : Grid) (c : Cell) : List Cell :=
  (w3_dirs.map (fun d => (c.1 + d.1, c.2 + d.2))).filter
    (fun nc => decide (inB n nc ∧ w3_passable g nc))

/-- One queue entry of `bfs_search`: the cell together with the list of
cells visited before it (the Python `(pos, path)` pair; `path` excludes
`pos`). -/
abbrev W3Entry : Type := Cell × List Cell

/-- The `while queue:` loop of `bfs_search` (`wumpus3.py` lines 217-233),
with an explicit fuel.  `none` means the fuel ran out (shown impossible
for `w3_fuel`); `some r` is the returned path (`[]` when the queue
empties). -/
def bfsAux (n : Nat) (g : Grid) (goal : Cell) :
    Nat → List W3Entry → Finset Cell → Option (List Cell)
  | 0, _, _ => none
  | _ + 1, [], _ => some []
  | fuel + 1, (c, p) :: rest, vis =>
    if c = goal then some (p ++ [c])
    else if c ∈ vis then bfsAux n g goal fuel rest vis
    else bfsAux n g goal fuel
      (rest ++ (w3_neighbors n g c).map (fun nc => (nc, p ++ [c])))
      (insert c vis)

/-- Fuel that always suffices for `bfsAux` (proved below): the loop pops
at most one entry per unit of fuel and at most `4*(n*n+1)+2` pops can
occur. -/
def w3_fuel (n : Nat) : Nat := 4 * (n * n + 1) + 2

/-- `bfs_search(grid, start, goal)` of `wumpus3.py`: runs the loop from
the initial queue `[(start, [])]` and empty visited set. -/
def bfs_search (n : Nat) (g : Grid) (s t : Cell) : List Cell :=
  (bfsAux n g t (w3_fuel n) [(s, [])] ∅).getD []

/-! ## Valid paths for the wumpus3 pathfinder -/

/-- Adjacency of two cells: the step is one of the four unit offsets. -/
def adjStep (a b : Cell) : Prop := (b.1 - a.1, b.2 - a.2) ∈ w3_dirs

instance (a b : Cell) : Decidable (adjStep a b) := by
  unfold adjStep; infer_instance

/-- A cell the wumpus3 BFS may step onto: in bounds and passable. -/
def w3_ok (n : Nat) (g : Grid) (c : Cell) : Prop := inB n c ∧ w3_passable g c

instance (n : Nat) (g : Grid) (c : Cell) : Decidable (w3_ok n g c) := by
  unfold w3_ok; infer_instance

/-- `w3_chain n g p` holds when consecutive cells of `p` are adjacent and
every cell after the first is in bounds and passable (the start cell is
unconstrained, exactly as in the source, which never checks it). -/
def w3_chain (n : Nat) (g : Grid) : List Cell → Prop
  | [] => True
  | [_] => True
  | a :: b :: rest => adjStep a b ∧ w3_ok n g b ∧ w3_chain n g (b :: rest)

instance w3_chain.inst (n : Nat) (g : Grid) : (p : List Cell) → Decidable (w3_chain n g p)
  | [] => .isTrue trivial
  | [_] => .isTrue trivial
  | a :: b :: rest =>
    letI := w3_chain.inst n g (b :: rest)
    inferInstanceAs (Decidable (adjStep a b ∧ w3_ok n g b ∧ w3_chain n g (b :: rest)))

/-- A valid path from `s` to `t` for the wumpus3 BFS: nonempty, starts at
`s`, ends at `t`, consecutive cells adjacent, every cell after the first
in bounds and not `PIT`/`WUMPUS`. -/
def ValidPath (n : Nat) (g : Grid) (s t : Cell) (p : List Cell) : Prop :=
  p.head? = some s ∧ p.getLast? = some t ∧ w3_chain n g p

instance (n : Nat) (g : Grid) (s t : Cell) (p : List Cell) :
    Decidable (ValidPath n g s t p) := by
  unfold ValidPath; infer_instance

/-- Reachability for the wumpus3 BFS: some valid path exists. -/
def W3Reach (n : Nat) (g : Grid) (s t : Cell) : Prop :=
  ∃ p, ValidPath n g s t p

/-! ## snake3.py : `SnakeGame.bfs_search` -/

/-- The four direction names of `snake3.py`'s `DIRECTIONS` dict. -/
inductive SnakeDir : Type
  | UP
  | DOWN
  | LEFT
  | RIGHT
  deriving DecidableEq

/-- `DIRECTIONS` of `snake3.py` in insertion (iteration) order:
`UP (0,-1), DOWN (0,1), LEFT (-1,0), RIGHT (1,0)`. -/
def snakeDirs : List (SnakeDir × (Int × Int)) :=
  [(SnakeDir.UP, (0, -1)), (SnakeDir.DOWN, (0, 1)),
   (SnakeDir.LEFT, (-1, 0)), (SnakeDir.RIGHT, (1, 0))]

/-- `WIDTH = HEIGHT = 400` of `snake3.py` (pixel coordinates). -/
def SNAKE_WH : Nat := 400

/-- The `for d in DIRECTIONS` body of `SnakeGame.bfs_search`: tries each
direction in order, and for each neighbour that is not yet visited, in
bounds, and not on the snake body, appends a queue entry and marks it
visited immediately (visited is recorded at enqueue time here). -/
def snakeExpand (snake : List Cell) (c : Cell) (p : List SnakeDir) :
    List (SnakeDir × (Int × Int)) → Finset Cell →
    (List (Cell × List SnakeDir) × Finset Cell)
  | [], vis => ([], vis)
  | (d, off) :: ds, vis =>
    let nc : Cell := (c.1 + off.1 * 20, c.2 + off.2 * 20)
    if nc ∉ vis ∧ 0 ≤ nc.1 ∧ nc.1 < (SNAKE_WH : Int) ∧ 0 ≤ nc.2 ∧
        nc.2 < (SNAKE_WH : Int) ∧ nc ∉ snake then
      let r := snakeExpand snake c p ds (insert nc vis)
      ((nc, p ++ [d]) :: r.1, r.2)
    else snakeExpand snake c p ds vis

/-- The `while queue:` loop of `SnakeGame.bfs_search` (`snake3.py` lines
170-178), fuelled.  Entries carry the direction list accumulated so far;
reaching the food returns that list (the food entry itself is popped, and
the start is compared before any expansion, so `start = food` yields `[]`). -/
def snakeAux (snake : List Cell) (food : Cell) :
    Nat → List (Cell × List SnakeDir) → Finset Cell → Option (List SnakeDir)
  | 0, _, _ => none
  | _ + 1, [], _ => some []
  | fuel + 1, (c, p) :: rest, vis =>
    if c = food then some p
    else
      let e := snakeExpand snake c p snakeDirs vis
      snakeAux snake food fuel (rest ++ e.1) e.2

/-- Fuel sufficient for `snakeAux` (proved below). -/
def snake_fuel : Nat := 2 * (SNAKE_WH * SNAKE_WH) + 2

/-- `SnakeGame.bfs_search`: BFS from the snake's head to the food over the
pixel grid, stepping by `GRID_SIZE = 20` pixels, avoiding the snake body.
The head is `self.snake[0]`; the embedding takes the snake list and uses
its head (the source guarantees the snake is nonempty). -/
def snake_bfs (snake : List Cell) (food : Cell) : List SnakeDir :=
  (snakeAux snake food snake_fuel [(snake.headI, [])] ∅).getD []

/-! ## wumpus4.py : `GameManager.calculate_path` (A*) -/

/-- Neighbour offsets of `get_neighbors` in `calculate_path`
(`wumpus4.py` line 921), in source order `[(0, 1), (1, 0), (0, -1), (-1, 0)]`. -/
def a_dirs : List (Int × Int) := [(0, 1), (1, 0), (0, -1), (-1, 0)]

/-- `heuristic(a, b)`: Manhattan distance `abs(a0-b0) + abs(a1-b1)`. -/
def heuristic (a b : Cell) : Nat := (a.1 - b.1).natAbs + (a.2 - b.2).natAbs

/-- The passability test of `get_neighbors`:
`self.grid[r][c] not in [OBSTACLE, WUMPUS]`. -/
def a_passable (g : Grid) (c : Cell) : Prop :=
  gget g c ≠ OBSTACLE ∧ gget g c ≠ WUMPUS

instance (g : Grid) (c : Cell) : Decidable (a_passable g c) := by
  unfold a_passable; infer_instance

/-- A cell the A* may step onto: in bounds and not `OBSTACLE`/`WUMPUS`. -/
def a_ok (n : Nat) (g : Grid) (c : Cell) : Prop := inB n c ∧ a_passable g c

instance (n : Nat) (g : Grid) (c : Cell) : Decidable (a_ok n g c) := by
  unfold a_ok; infer_instance

/-- `get_neighbors(pos)` of `calculate_path` (`wumpus4.py` lines 916-929). -/
def get_neighbors (n : Nat) (g : Grid) (pos : Cell) : List Cell :=
  (a_dirs.map (fun d => (pos.1 + d.1, pos.2 + d.2))).filter
    (fun c => decide (a_ok n g c))

/-- The teleport penalty of `calculate_path` (`wumpus4.py` lines 953-957):
1 when the destination cell of the move holds a `TELEPORT`, else 0.  It
depends only on the grid, never on the teleport pairing map. -/
def teleport_penalty (g : Grid) (c : Cell) : Nat :=
  if gget g c = TELEPORT then 1 else 0

/-- The edge cost of one A* move onto cell `c`:
`1 + teleport_penalty` (`tentative_g = g_score[current] + 1 + teleport_penalty`). -/
def stepW (g : Grid) (c : Cell) : Nat := 1 + teleport_penalty g c

/-- The scored cost of a whole path: the sum of the edge costs of its
moves (the start cell costs nothing). -/
def pathCost (g : Grid) : List Cell → Nat
  | [] => 0
  | [_] => 0
  | _ :: b :: rest => stepW g b + pathCost g (b :: rest)

/-- Dictionary lookup on an association list (a Python dict): the first
binding of the key wins (updates below remove the old binding first, so
the first binding is the current one). -/
def lookupA {α : Type} : List (Cell × α) → Cell → Option α
  | [], _ => none
  | p :: l, k => if p.1 = k then some p.2 else lookupA l k

/-- Dictionary update `d[k] = v`: the new binding replaces any old one. -/
def updA {α : Type} (k : Cell) (v : α) (l : List (Cell × α)) : List (Cell × α) :=
  (k, v) :: l.filter (fun p => decide (p.1 ≠ k))

/-- `min(open_set, key=lambda x: x[0])`: the first element with the
minimal stored f-value (ties keep the earlier element, as Python's `min`
does). -/
def minEntry (e : Nat × Cell) : List (Nat × Cell) → Nat × Cell
  | [] => e
  | x :: xs => if x.1 < e.1 then minEntry x xs else minEntry e xs

/-- The path reconstruction of `calculate_path` (`wumpus4.py` lines
942-948): follow `came_from` from the popped goal, then append the start
and reverse.  Written here as a forward recursion; the fuel is proved
sufficient for the states the loop reaches. -/
def reconstruct (cf : List (Cell × Cell)) (s : Cell) : Nat → Cell → List Cell
  | 0, _ => [s]
  | fuel + 1, cur =>
    match lookupA cf cur with
    | none => [s]
    | some prev => reconstruct cf s fuel prev ++ [cur]

/-- The A* state: the `open_set` list of `(stored f, cell)` pairs, the
`g_score` dict and the `came_from` dict.  (`f_score[n]` is written and
then immediately read for the push in the source, so it is inlined into
the pushed pair.) -/
abbrev AState : Type :=
  List (Nat × Cell) × List (Cell × Nat) × List (Cell × Cell)

/-- The update branch of one A* relaxation (`wumpus4.py` lines 961-966):
set `came_from`/`g_score`/`f_score` for the neighbour and push it onto
`open_set` unless it is already there (`open_set.append`, so at the end). -/
def relaxUpd (g : Grid) (goal cur : Cell) (gc : Nat) (st : AState)
    (nb : Cell) : AState :=
  ((if st.1.any (fun x => decide (x.2 = nb)) then st.1
    else st.1 ++ [(gc + stepW g nb + heuristic nb goal, nb)]),
   updA nb (gc + stepW g nb) st.2.1,
   updA nb cur st.2.2)

/-- One relaxation (`for neighbor in get_neighbors(current)` body,
`wumpus4.py` lines 952-966): update when the neighbour has no `g_score`
yet (`neighbor not in g_score`) or the new tentative cost improves it. -/
def relaxOne (g : Grid) (goal cur : Cell) (gc : Nat) (st : AState)
    (nb : Cell) : AState :=
  match lookupA st.2.1 nb with
  | none => relaxUpd g goal cur gc st nb
  | some gn =>
    if gc + stepW g nb < gn then relaxUpd g goal cur gc st nb else st

/-- The relaxation loop over all neighbours of the popped cell. -/
def relaxList (g : Grid) (goal cur : Cell) (gc : Nat) :
    List Cell → AState → AState
  | [], st => st
  | nb :: nbs, st => relaxList g goal cur gc nbs (relaxOne g goal cur gc st nb)

/-- Row-major finset of the in-bounds cells of an `n` by `n` grid. -/
def allCells (n : Nat) : Finset Cell :=
  Finset.Icc (0 : Int) ((n : Int) - 1) ×ˢ Finset.Icc (0 : Int) ((n : Int) - 1)

/-- The cells the A* bookkeeping can ever mention: the start plus the
in-bounds cells. -/
def spaceA (n : Nat) (s : Cell) : Finset Cell := insert s (allCells n)

/-- Number of cells of `spaceA` without a `g_score` yet (the first
component of the termination measure of the A* loop). -/
def freeCount (n : Nat) (s : Cell) (gs : List (Cell × Nat)) : Nat :=
  ((spaceA n s).filter (fun c => lookupA gs c = none)).card

/-- Sum of all values stored in a `g_score` association list. -/
def sumg (gs : List (Cell × Nat)) : Nat := (gs.map (fun p => p.2)).sum

theorem lookupA_filter_ne {α : Type} (k k' : Cell) (l : List (Cell × α))
    (h : k' ≠ k) :
    lookupA (l.filter (fun p => decide (p.1 ≠ k))) k' = lookupA l k' := by
  induction l with
  | nil => rfl
  | cons a l ih =>
    rw [List.filter_cons]
    by_cases ha : a.1 = k
    · have hd : (decide (a.1 ≠ k)) = false := by simp [ha]
      rw [hd]
      simp only [Bool.false_eq_true, if_false]
      rw [ih, lookupA, if_neg (by rw [ha]; exact fun hh => h hh.symm)]
    · have hd : (decide (a.1 ≠ k)) = true := by simp [ha]
      rw [hd]
      simp only [if_true]
      rw [lookupA, lookupA, ih]

theorem lookupA_updA {α : Type} (k k' : Cell) (v : α) (l : List (Cell × α)) :
    lookupA (updA k v l) k' = if k' = k then some v else lookupA l k' := by
  unfold updA
  rw [lookupA]
  by_cases h : k' = k
  · rw [if_pos (h.symm), if_pos h]
  · rw [if_neg (fun hh => h hh.symm), if_neg h, lookupA_filter_ne _ _ _ h]

theorem mem_allCells {n : Nat} {c : Cell} : c ∈ allCells n ↔ inB n c := by
  unfold allCells inB
  rw [Finset.mem_product]
  simp only [Finset.mem_Icc]
  omega

theorem freeCount_updA_le (n : Nat) (s k : Cell) {α : Nat} (gs : List (Cell × Nat)) :
    freeCount n s (updA k α gs) ≤ freeCount n s gs := by
  unfold freeCount
  apply Finset.card_le_card
  intro c hc
  rw [Finset.mem_filter] at hc ⊢
  refine ⟨hc.1, ?_⟩
  have h2 := hc.2
  rw [lookupA_updA] at h2
  by_cases hck : c = k
  · rw [if_pos hck] at h2; exact absurd h2 (by simp)
  · rwa [if_neg hck] at h2

theorem freeCount_updA_lt (n : Nat) (s k : Cell) (v : Nat) (gs : List (Cell × Nat))
    (hk : k ∈ spaceA n s) (h : lookupA gs k = none) :
    freeCount n s (updA k v gs) < freeCount n s gs := by
  unfold freeCount
  apply Finset.card_lt_card
  constructor
  · intro c hc
    rw [Finset.mem_filter] at hc ⊢
    refine ⟨hc.1, ?_⟩
    have h2 := hc.2
    rw [lookupA_updA] at h2
    by_cases hck : c = k
    · rw [if_pos hck] at h2; exact absurd h2 (by simp)
    · rwa [if_neg hck] at h2
  · intro hsub
    have hk2 : k ∈ (spaceA n s).filter (fun c => lookupA gs c = none) := by
      rw [Finset.mem_filter]; exact ⟨hk, h⟩
    have := hsub hk2
    rw [Finset.mem_filter, lookupA_updA, if_pos rfl] at this
    exact absurd this.2 (by simp)

theorem freeCount_updA_eq (n : Nat) (s k : Cell) (v gn : Nat) (gs : List (Cell × Nat))
    (h : lookupA gs k = some gn) :
    freeCount n s (updA k v gs) = freeCount n s gs := by
  unfold freeCount
  congr 1
  apply Finset.filter_congr
  intro c _
  rw [lookupA_updA]
  by_cases hck : c = k
  · rw [if_pos hck, hck, h]; simp
  · rw [if_neg hck]

theorem sumg_filter_le (q : Cell × Nat → Bool) (l : List (Cell × Nat)) :
    sumg (l.filter q) ≤ sumg l := by
  induction l with
  | nil => simp [sumg]
  | cons a l ih =>
    rw [List.filter_cons]
    unfold sumg at ih ⊢
    cases q a
    · simp only [Bool.false_eq_true, if_false, List.map_cons, List.sum_cons]
      omega
    · simp only [if_true, List.map_cons, List.sum_cons]
      omega

theorem sumg_updA (k : Cell) (v gn : Nat) (gs : List (Cell × Nat))
    (h : lookupA gs k = some gn) :
    sumg (updA k v gs) + gn ≤ v + sumg gs := by
  induction gs with
  | nil => simp [lookupA] at h
  | cons a l ih =>
    rw [lookupA] at h
    by_cases ha : a.1 = k
    · rw [if_pos ha] at h
      have hgn : a.2 = gn := by injection h
      unfold updA sumg
      rw [List.filter_cons]
      have hd : (decide (a.1 ≠ k)) = false := by simp [ha]
      rw [hd]
      simp only [Bool.false_eq_true, if_false, List.map_cons, List.sum_cons]
      have := sumg_filter_le (fun p => decide (p.1 ≠ k)) l
      unfold sumg at this
      omega
    · rw [if_neg ha] at h
      have := ih h
      unfold updA sumg at this ⊢
      rw [List.filter_cons]
      have hne : (decide (a.1 ≠ k)) = true := by simp [ha]
      rw [hne]
      simp only [if_true, List.map_cons, List.sum_cons] at this ⊢
      omega

theorem relaxUpd_open_len (g : Grid) (goal cur : Cell) (gc : Nat)
    (st : AState) (nb : Cell) :
    (relaxUpd g goal cur gc st nb).1.length ≤ st.1.length + 1 := by
  unfold relaxUpd
  cases st.1.any (fun x => decide (x.2 = nb))
  · simp
  · simp

theorem relaxOne_measure (n : Nat) (s : Cell) (g : Grid) (goal cur : Cell)
    (gc : Nat) (st : AState) (nb : Cell) (hnb : nb ∈ spaceA n s) :
    freeCount n s (relaxOne g goal cur gc st nb).2.1 ≤ freeCount n s st.2.1 ∧
    (freeCount n s (relaxOne g goal cur gc st nb).2.1 = freeCount n s st.2.1 →
      sumg (relaxOne g goal cur gc st nb).2.1 +
        (relaxOne g goal cur gc st nb).1.length ≤ sumg st.2.1 + st.1.length) := by
  obtain ⟨opn, gs, cf⟩ := st
  unfold relaxOne
  cases hgn : lookupA gs nb with
  | none =>
    dsimp only
    have hlt := freeCount_updA_lt n s nb (gc + stepW g nb) gs hnb hgn
    unfold relaxUpd
    exact ⟨le_of_lt hlt, fun he => absurd he (Nat.ne_of_lt hlt)⟩
  | some gn =>
    dsimp only
    by_cases hc : gc + stepW g nb < gn
    · rw [if_pos hc]
      have heq := freeCount_updA_eq n s nb (gc + stepW g nb) gn gs hgn
      have hsum := sumg_updA nb (gc + stepW g nb) gn gs hgn
      have hlen := relaxUpd_open_len g goal cur gc (opn, gs, cf) nb
      unfold relaxUpd at hlen ⊢
      exact ⟨le_of_eq heq, fun _ => by dsimp only at hlen ⊢; omega⟩
    · rw [if_neg hc]
      exact ⟨le_refl _, fun _ => le_refl _⟩

theorem relaxList_measure (n : Nat) (s : Cell) (g : Grid) (goal cur : Cell)
    (gc : Nat) (nbs : List Cell) (hnbs : ∀ x ∈ nbs, x ∈ spaceA n s)
    (st : AState) :
    freeCount n s (relaxList g goal cur gc nbs st).2.1 ≤ freeCount n s st.2.1 ∧
    (freeCount n s (relaxList g goal cur gc nbs st).2.1 = freeCount n s st.2.1 →
      sumg (relaxList g goal cur gc nbs st).2.1 +
        (relaxList g goal cur gc nbs st).1.length ≤ sumg st.2.1 + st.1.length) := by
  induction nbs generalizing st with
  | nil => exact ⟨le_refl _, fun _ => le_refl _⟩
  | cons nb nbs ih =>
    have h1 := relaxOne_measure n s g goal cur gc st nb (hnbs nb (by simp))
    have h2 := ih (fun x hx => hnbs x (by simp [hx])) (relaxOne g goal cur gc st nb)
    rw [relaxList]
    constructor
    · exact le_trans h2.1 h1.1
    · intro he
      have e1 : freeCount n s (relaxOne g goal cur gc st nb).2.1 =
          freeCount n s st.2.1 :=
        le_antisymm h1.1 (by rw [← he]; exact h2.1)
      have e2 : freeCount n s (relaxList g goal cur gc nbs
          (relaxOne g goal cur gc st nb)).2.1 =
          freeCount n s (relaxOne g goal cur gc st nb).2.1 := by
        rw [he, e1]
      exact le_trans (h2.2 e2) (h1.2 e1)

theorem get_neighbors_spaceA (n : Nat) (s : Cell) (g : Grid) (cur : Cell) :
    ∀ x ∈ get_neighbors n g cur, x ∈ spaceA n s := by
  intro x hx
  unfold get_neighbors at hx
  rw [List.mem_filter] at hx
  have hok : a_ok n g x := of_decide_eq_true hx.2
  unfold spaceA
  exact Finset.mem_insert_of_mem (mem_allCells.mpr hok.1)

theorem minEntry_mem (e : Nat × Cell) (l : List (Nat × Cell)) :
    minEntry e l ∈ e :: l := by
  induction l generalizing e with
  | nil => simp [minEntry]
  | cons x xs ih =>
    rw [minEntry]
    by_cases h : x.1 < e.1
    · rw [if_pos h]
      have := ih x
      rcases List.mem_cons.mp this with h1 | h1
      · simp [h1]
      · simp [h1]
    · rw [if_neg h]
      have := ih e
      rcases List.mem_cons.mp this with h1 | h1
      · simp [h1]
      · simp [h1]

theorem filter_length_lt {α : Type} (l : List α) (p : α → Bool) (x : α)
    (hx : x ∈ l) (hpx : p x = false) : (l.filter p).length < l.length := by
  induction l with
  | nil => simp at hx
  | cons a l ih =>
    rw [List.filter_cons]
    rcases List.mem_cons.mp hx with h1 | h1
    · subst h1
      rw [hpx]
      simp only [Bool.false_eq_true, if_false, List.length_cons]
      have := List.length_filter_le p l
      omega
    · cases hpa : p a
      · simp only [Bool.false_eq_true, if_false, List.length_cons]
        have := List.length_filter_le p l
        omega
      · simp only [if_true, List.length_cons]
        exact Nat.succ_lt_succ (ih h1)

/-- The `while open_set:` loop of `calculate_path` (`wumpus4.py` lines
937-966): pop the first entry with minimal stored f, drop all its
`open_set` entries, return the reconstructed path when it is the goal,
otherwise relax its neighbours and continue.  Terminates because each
iteration either assigns a first `g_score` to a cell of `spaceA`, or
strictly lowers the sum of the `g_score` values plus the `open_set`
length. -/
def astarLoop (n : Nat) (g : Grid) (s goal : Cell) (opn : List (Nat × Cell))
    (gs : List (Cell × Nat)) (cf : List (Cell × Cell)) : List Cell :=
  match opn with
  | [] => []
  | o :: os =>
    let cur := minEntry o os
    let rest := (o :: os).filter (fun x => decide (x.2 ≠ cur.2))
    if cur.2 = goal then reconstruct cf s (n * n + 2) cur.2
    else
      let st' := relaxList g goal cur.2 ((lookupA gs cur.2).getD 0)
        (get_neighbors n g cur.2) (rest, gs, cf)
      astarLoop n g s goal st'.1 st'.2.1 st'.2.2
termination_by (freeCount n s gs, sumg gs + opn.length)
decreasing_by
  have hm := relaxList_measure n s g goal (minEntry x xs).2
    ((lookupA gs (minEntry x xs).2).getD 0) (get_neighbors n g (minEntry x xs).2)
    (get_neighbors_spaceA n s g (minEntry x xs).2)
    ((x :: xs).filter (fun y => decide (y.2 ≠ (minEntry x xs).2)), gs, cf)
  have hrest : ((x :: xs).filter
      (fun y => decide (y.2 ≠ (minEntry x xs).2))).length < (x :: xs).length := by
    apply filter_length_lt (x :: xs) _ (minEntry x xs) (minEntry_mem x xs)
    simp
  dsimp only at hm ⊢
  rcases lt_or_eq_of_le hm.1 with hlt | heq
  · exact Prod.Lex.left _ _ hlt
  · rw [heq]
    apply Prod.Lex.right
    have h2 := hm.2 heq
    omega

/-- A fuel-indexed copy of `astarLoop`, used to evaluate the loop on
concrete inputs (`none` means the fuel ran out; the lemma
`astarLoopF_eq` transfers any `some` result to `astarLoop`). -/
def astarLoopF (n : Nat) (g : Grid) (s goal : Cell) :
    Nat → AState → Option (List Cell)
  | 0, _ => none
  | fuel + 1, (opn, gs, cf) =>
    match opn with
    | [] => some []
    | o :: os =>
      let cur := minEntry o os
      let rest := (o :: os).filter (fun x => decide (x.2 ≠ cur.2))
      if cur.2 = goal then some (reconstruct cf s (n * n + 2) cur.2)
      else
        astarLoopF n g s goal fuel
          (relaxList g goal cur.2 ((lookupA gs cur.2).getD 0)
            (get_neighbors n g cur.2) (rest, gs, cf))

/-- `GameManager.calculate_path` of `wumpus4.py` (lines 907-970): A* from
`s` to `goal` with `open_set = [(0, agent_pos)]`, `g_score = {agent: 0}`
and empty `came_from`; returns the found path, or `[]` when the open set
empties. -/
def calculate_path (n : Nat) (g : Grid) (s goal : Cell) : List Cell :=
  astarLoop n g s goal [(0, s)] [(s, 0)] []

/-! ## wumpus4.py : `GameManager.initialize_teleports` -/

/-- The teleport-cell scan of `initialize_teleports` (`wumpus4.py` lines
894-898): all cells holding `TELEPORT`, in row-major order. -/
def teleportPositions (n : Nat) (g : Grid) : List Cell :=
  (List.range n).flatMap (fun r =>
    (List.range n).filterMap (fun (c : Nat) =>
      if gget g ((r : Int), (c : Int)) = TELEPORT
      then some ((r : Int), (c : Int)) else none))

/-- The pairing loop of `initialize_teleports` (`wumpus4.py` lines
900-905): `for i in range(0, len, 2)`, mapping `t[i] ↦ t[i+1]` and
`t[i+1] ↦ t[i]` whenever `i+1` exists; a trailing odd element gets no
binding. -/
def pairUp : List Cell → List (Cell × Cell)
  | a :: b :: rest => (a, b) :: (b, a) :: pairUp rest
  | _ => []

/-- `GameManager.initialize_teleports`: the teleport destination dict
built from the shuffled list of teleport positions.  `random.shuffle` is
modelled by taking the shuffled list `ts` as the argument; the theorems
quantify over every permutation of `teleportPositions`. -/
def initialize_teleports (ts : List Cell) : List (Cell × Cell) := pairUp ts

/-! ## wumpus4.py : `Level.generate_grid` / `Level.find_empty_position` -/

/-- A difficulty profile: the five requested counts
(`wumpus, pits, obstacles, traps, teleports` of `DIFFICULTY_SETTINGS`). -/
structure Profile : Type where
  wumpus : Nat
  pits : Nat
  obstacles : Nat
  traps : Nat
  teleports : Nat

/-- Row-major list of the in-bounds cells (the fallback double loop of
`find_empty_position`, `wumpus4.py` lines 449-452). -/
def cellsRowMajor (size : Nat) : List Cell :=
  (List.range size).flatMap (fun r =>
    (List.range size).map (fun c => ((r : Int), (c : Int))))

/-- The acceptance test of the random-attempt loop of
`find_empty_position` (`wumpus4.py` lines 441-444): empty, not excluded,
and outside the Chebyshev-distance-1 safety zone around the agent. -/
def fep_cond (agent : Cell) (g : Grid) (excl : List Cell) (c : Cell) : Prop :=
  gget g c = EMPTY ∧ c ∉ excl ∧
    (1 < (c.1 - agent.1).natAbs ∨ 1 < (c.2 - agent.2).natAbs)

instance (agent : Cell) (g : Grid) (excl : List Cell) (c : Cell) :
    Decidable (fep_cond agent g excl c) := by
  unfold fep_cond; infer_instance

/-- The `while attempts < 100` loop of `find_empty_position`: draw the
`k`-th random cell and accept it when `fep_cond` holds.  The two
`random.randint(0, size-1)` calls of one attempt are modelled as one
drawn cell. -/
def attemptFind (agent : Cell) (g : Grid) (excl : List Cell)
    (draws : Nat → Cell) : Nat → Nat → Option Cell
  | 0, _ => none
  | fuel + 1, k =>
    if fep_cond agent g excl (draws k) then some (draws k)
    else attemptFind agent g excl draws fuel (k + 1)

/-- `Level.find_empty_position` (`wumpus4.py` lines 434-454): 100 random
attempts, then a deterministic row-major scan for the first empty,
unexcluded cell (the fallback ignores the safety zone), else `None`. -/
def find_empty_position (size : Nat) (agent : Cell) (g : Grid)
    (excl : List Cell) (draws : Nat → Cell) : Option Cell :=
  match attemptFind agent g excl draws 100 0 with
  | some c => some c
  | none =>
    (cellsRowMajor size).find? (fun c => decide (gget g c = EMPTY ∧ c ∉ excl))

/-- One placement loop of `generate_grid` (one `for _ in range(count)`):
each round calls `find_empty_position` with the base exclusions plus the
positions accumulated so far, writes the entity into the grid on success
and appends the position.  `rng k` is the draw stream of the `k`-th
`find_empty_position` call; the call counter threads through the whole
generation. -/
def placeLoop (size : Nat) (agent : Cell) (kind : Entity)
    (rng : Nat → Nat → Cell) :
    Nat → Nat → Grid → List Cell → List Cell → Grid × List Cell × Nat
  | 0, k, g, _, acc => (g, acc, k)
  | cnt + 1, k, g, excl, acc =>
    match find_empty_position size agent g (excl ++ acc) (rng k) with
    | some pos =>
      placeLoop size agent kind rng cnt (k + 1) (gset g pos kind) excl
        (acc ++ [pos])
    | none => placeLoop size agent kind rng cnt (k + 1) g excl acc

/-- The result of `Level.generate_grid`.  The source returns
`(grid, agent_pos, gold_pos, wumpus_positions)` and keeps the other
placement lists in locals; the embedding exposes all of them so the
invariants can speak about every category. -/
structure GenResult : Type where
  grid : Grid
  agent : Cell
  gold : Cell
  wumpuses : List Cell
  pitsPlaced : List Cell
  obstaclesPlaced : List Cell
  trapsPlaced : List Cell
  teleportsPlaced : List Cell

/-- `Level.generate_grid` (`wumpus4.py` lines 384-432): place `AGENT` at
`(0,0)` and `GOLD` at `(size-1, size-1)` (the positions set by the
`Level` constructor), then place wumpuses, pits, obstacles, traps and
teleports in that order, each category excluding the agent, the gold and
everything placed before it. -/
def generate_grid (size : Nat) (prof : Profile)
    (rng : Nat → Nat → Cell) : GenResult :=
  let agent : Cell := (0, 0)
  let gold : Cell := ((size : Int) - 1, (size : Int) - 1)
  let g2 := gset (gset (fun _ _ => EMPTY) agent AGENT) gold GOLD
  let rw := placeLoop size agent WUMPUS rng prof.wumpus 0 g2 [agent, gold] []
  let rp := placeLoop size agent PIT rng prof.pits rw.2.2 rw.1
    ([agent, gold] ++ rw.2.1) []
  let ro := placeLoop size agent OBSTACLE rng prof.obstacles rp.2.2 rp.1
    ([agent, gold] ++ rw.2.1 ++ rp.2.1) []
  let rt := placeLoop size agent TRAP rng prof.traps ro.2.2 ro.1
    ([agent, gold] ++ rw.2.1 ++ rp.2.1 ++ ro.2.1) []
  let rl := placeLoop size agent TELEPORT rng prof.teleports rt.2.2 rt.1
    ([agent, gold] ++ rw.2.1 ++ rp.2.1 ++ ro.2.1 ++ rt.2.1) []
  { grid := rl.1
    agent := agent
    gold := gold
    wumpuses := rw.2.1
    pitsPlaced := rp.2.1
    obstaclesPlaced := ro.2.1
    trapsPlaced := rt.2.1
    teleportsPlaced := rl.2.1 }

/-! ## wumpus4.py : the replay driver inside `GameManager.update` -/

/-- The replay state mutated by `GameManager.update`: the grid, the agent
position, the remaining path, the pending animations
`(start, end, entity_type)`, the terminal flags, the score and the step
counter.  One `updateTick` models the completion of the current animation
(or, with no animation pending, the scheduling of the next path move);
durations and frame timing only decide when completions happen, not what
they do. -/
structure RState : Type where
  grid : Grid
  agent : Cell
  path : List Cell
  anims : List (Cell × Cell × Entity)
  over : Bool
  won : Bool
  score : Int
  steps : Nat

/-- The agent-arrival branch of `GameManager.update` (`wumpus4.py` lines
994-1048): leave `TRAIL` behind, move the agent, react to the entity at
the new position (gold, wumpus/pit, trap, teleport — the teleport case
inserts the ripple and one synthesized move to the paired destination),
then stamp `AGENT` onto the new cell and count the step. -/
def agentArrive (tm : List (Cell × Cell)) (st : RState) (npos : Cell)
    (rest : List (Cell × Cell × Entity)) : RState :=
  let g1 := gset st.grid st.agent TRAIL
  let e := gget g1 npos
  let anims2 :=
    if e = GOLD then (npos, npos, GOLD) :: rest
    else if e = TRAP then (npos, npos, TRAP) :: rest
    else if e = TELEPORT then
      match lookupA tm npos with
      | some dest => (npos, npos, TELEPORT) :: (npos, dest, AGENT) :: rest
      | none => rest
    else rest
  { grid := gset g1 npos AGENT
    agent := npos
    path := st.path
    anims := anims2
    over := st.over || decide (e = WUMPUS) || decide (e = PIT)
    won := st.won || decide (e = GOLD)
    score := st.score + (if e = GOLD then 1000 - (st.steps : Int) * 10 else 0)
      - (if e = TRAP then 100 else 0)
    steps := st.steps + 1 }

/-- One tick of the replay driver (`GameManager.update`, lines 986-1087):
if an animation is pending, complete it (only agent animations change the
state; the gold/trap/teleport ripples are display-only); otherwise, when
the game is not over and at least two path cells remain, pop the current
path cell and append the move animation to the next one. -/
def updateTick (tm : List (Cell × Cell)) (st : RState) : RState :=
  match st.anims with
  | a :: rest =>
    if a.2.2 = AGENT then agentArrive tm st a.2.1 rest
    else { st with anims := rest }
  | [] =>
    if st.over = false ∧ st.won = false then
      match st.path with
      | c1 :: c2 :: pr =>
        { st with path := c2 :: pr, anims := [(c1, c2, AGENT)] }
      | _ => st
    else st

/-! ## Valid paths for the A* pathfinder, and snake-path semantics -/

/-- Chain condition for the A* pathfinder: consecutive cells adjacent,
every cell after the first in bounds and not `OBSTACLE`/`WUMPUS`. -/
def a_chain (n : Nat) (g : Grid) : List Cell → Prop
  | [] => True
  | [_] => True
  | a :: b :: rest => adjStep a b ∧ a_ok n g b ∧ a_chain n g (b :: rest)

instance a_chain.inst (n : Nat) (g : Grid) :
    (p : List Cell) → Decidable (a_chain n g p)
  | [] => .isTrue trivial
  | [_] => .isTrue trivial
  | a :: b :: rest =>
    letI := a_chain.inst n g (b :: rest)
    inferInstanceAs (Decidable (adjStep a b ∧ a_ok n g b ∧ a_chain n g (b :: rest)))

/-- A valid path from `s` to `t` for the A* pathfinder. -/
def AValidPath (n : Nat) (g : Grid) (s t : Cell) (p : List Cell) : Prop :=
  p.head? = some s ∧ p.getLast? = some t ∧ a_chain n g p

instance (n : Nat) (g : Grid) (s t : Cell) (p : List Cell) :
    Decidable (AValidPath n g s t p) := by
  unfold AValidPath; infer_instance

/-- Reachability for the A* pathfinder. -/
def AReach (n : Nat) (g : Grid) (s t : Cell) : Prop :=
  ∃ p, AValidPath n g s t p

/-- Apply one snake move: the pixel offset of the direction times
`GRID_SIZE = 20`. -/
def applyDir (c : Cell) (d : SnakeDir) : Cell :=
  match d with
  | SnakeDir.UP => (c.1, c.2 - 20)
  | SnakeDir.DOWN => (c.1, c.2 + 20)
  | SnakeDir.LEFT => (c.1 - 20, c.2)
  | SnakeDir.RIGHT => (c.1 + 20, c.2)

/-- The cell reached after following a list of snake moves. -/
def followDirs (c : Cell) : List SnakeDir → Cell
  | [] => c
  | d :: ds => followDirs (applyDir c d) ds

/-- A cell the snake BFS may step onto: inside the 400 by 400 pixel area
and not on the snake body. -/
def snakeOk (snake : List Cell) (c : Cell) : Prop :=
  0 ≤ c.1 ∧ c.1 < (SNAKE_WH : Int) ∧ 0 ≤ c.2 ∧ c.2 < (SNAKE_WH : Int) ∧
    c ∉ snake

instance (snake : List Cell) (c : Cell) : Decidable (snakeOk snake c) := by
  unfold snakeOk; infer_instance

/-- Every cell entered while following `ds` from `c` is `snakeOk`. -/
def snakeChainOk (snake : List Cell) (c : Cell) : List SnakeDir → Prop
  | [] => True
  | d :: ds => snakeOk snake (applyDir c d) ∧ snakeChainOk snake (applyDir c d) ds

instance snakeChainOk.inst (snake : List Cell) (c : Cell) :
    (ds : List SnakeDir) → Decidable (snakeChainOk snake c ds)
  | [] => .isTrue trivial
  | d :: ds =>
    letI := snakeChainOk.inst snake (applyDir c d) ds
    inferInstanceAs (Decidable (snakeOk snake (applyDir c d) ∧
      snakeChainOk snake (applyDir c d) ds))

/-- The food is reachable from `c` through cells off the snake body. -/
def SnakeReach (snake : List Cell) (c food : Cell) : Prop :=
  ∃ ds, snakeChainOk snake c ds ∧ followDirs c ds = food

/-! ## Concrete grids used by the counterexamples, witnesses and scenarios -/

/-- The all-empty grid. -/
def gridEmpty : Grid := fun _ _ => EMPTY

/-- A 3 by 3 scene with a single `OBSTACLE` between `(0,0)` and `(0,2)`. -/
def gridObstacleRow : Grid := fun x y => if x = 0 ∧ y = 1 then OBSTACLE else EMPTY

/-- A 3 by 3 scene that is all `PIT` except the corner `(0,0)` and the
goal `(0,2)`: every route to the goal crosses a pit. -/
def gridPitWall : Grid := fun x y =>
  if (x = 0 ∧ y = 0) ∨ (x = 0 ∧ y = 2) then EMPTY else PIT

/-- A 3 by 3 scene with one `PIT` at `(0,1)`: the A* walks straight
through it while the wumpus3 BFS must go around. -/
def gridPitDetour : Grid := fun x y => if x = 0 ∧ y = 1 then PIT else EMPTY

/-- The 5 by 5 scene refuting A* cost optimality: obstacles at `(0,2)`,
`(1,1)`, `(2,3)` and one (unpaired) teleport at `(2,1)`.  From `(2,4)`
to `(1,0)` the A* returns a path through the teleport cell of scored
cost 8, while the detour through row 3 has scored cost 7. -/
def gridAstarSub : Grid := fun x y =>
  if (x = 0 ∧ y = 2) ∨ (x = 1 ∧ y = 1) ∨ (x = 2 ∧ y = 3) then OBSTACLE
  else if x = 2 ∧ y = 1 then TELEPORT else EMPTY

/-- The spec's concrete 5 by 5 scenario: agent marker at `(0,0)`, gold at
`(4,4)`, nothing else. -/
def gridC6 : Grid := fun x y =>
  if x = 0 ∧ y = 0 then AGENT else if x = 4 ∧ y = 4 then GOLD else EMPTY

/-- A grid holding a teleport pair at `(1,1)` and `(3,3)` (the spec's
replay scenario). -/
def gridTeleportPair : Grid := fun x y =>
  if (x = 1 ∧ y = 1) ∨ (x = 3 ∧ y = 3) then TELEPORT else EMPTY

/-- The teleport map pairing `(1,1)` with `(3,3)` both ways. -/
def tmPair : List (Cell × Cell) := [((1, 1), (3, 3)), ((3, 3), (1, 1))]

/-- A replay state about to complete the move onto the teleport cell
`(1,1)` from `(1,0)`, with the remaining path continuing to `(1,2)`. -/
def replayStart : RState :=
  { grid := gridTeleportPair
    agent := (1, 0)
    path := [(1, 1), (1, 2)]
    anims := [((1, 0), (1, 1), AGENT)]
    over := false
    won := false
    score := 0
    steps := 0 }

/-! ## Path lemmas for the wumpus3 BFS -/

theorem w3_neighbors_mem (n : Nat) (g : Grid) (c w : Cell) :
    w ∈ w3_neighbors n g c ↔ adjStep c w ∧ w3_ok n g w := by
  unfold w3_neighbors adjStep w3_dirs
  rw [List.mem_filter]
  simp only [List.mem_map, List.mem_cons, List.mem_singleton,
    decide_eq_true_eq]
  constructor
  · rintro ⟨⟨d, hd, rfl⟩, hok⟩
    refine ⟨?_, hok⟩
    obtain ⟨c1, c2⟩ := c
    simp only [List.mem_nil_iff, or_false] at hd
    rcases hd with rfl | rfl | rfl | rfl <;> simp only [Prod.mk.injEq] <;> omega
  · rintro ⟨hadj, hok⟩
    refine ⟨⟨(w.1 - c.1, w.2 - c.2), hadj, ?_⟩, hok⟩
    obtain ⟨w1, w2⟩ := w
    obtain ⟨c1, c2⟩ := c
    simp only [Prod.mk.injEq]
    omega

theorem valid_single (n : Nat) (g : Grid) (s : Cell) :
    ValidPath n g s s [s] := by
  refine ⟨rfl, rfl, trivial⟩

theorem chain_snoc (n : Nat) (g : Grid) :
    ∀ (q : List Cell) (c w : Cell), w3_chain n g q → q.getLast? = some c →
      adjStep c w → w3_ok n g w → w3_chain n g (q ++ [w])
  | [], c, w => by intro _ h; simp at h
  | [a], c, w => by
    intro _ h hadj hok
    have : a = c := by simpa using h
    subst this
    exact ⟨hadj, hok, trivial⟩
  | a :: b :: r, c, w => by
    intro hch hl hadj hok
    obtain ⟨h1, h2, h3⟩ := hch
    have hl2 : (b :: r).getLast? = some c := by
      rw [List.getLast?_cons_cons] at hl
      exact hl
    exact ⟨h1, h2, chain_snoc n g (b :: r) c w h3 hl2 hadj hok⟩

theorem valid_snoc (n : Nat) (g : Grid) (s c w : Cell) (q : List Cell)
    (hv : ValidPath n g s c q) (hadj : adjStep c w) (hok : w3_ok n g w) :
    ValidPath n g s w (q ++ [w]) := by
  obtain ⟨h1, h2, h3⟩ := hv
  refine ⟨?_, ?_, chain_snoc n g q c w h3 h2 hadj hok⟩
  · cases q with
    | nil => simp at h1
    | cons a l => simpa using h1
  · simp

theorem chain_snoc_inv (n : Nat) (g : Grid) :
    ∀ (q : List Cell) (w : Cell), w3_chain n g (q ++ [w]) → q ≠ [] →
      ∃ c, q.getLast? = some c ∧ w3_chain n g q ∧ adjStep c w ∧ w3_ok n g w
  | [], w => by intro _ h; exact absurd rfl h
  | [a], w => by
    intro hch _
    obtain ⟨h1, h2, _⟩ := hch
    exact ⟨a, rfl, trivial, h1, h2⟩
  | a :: b :: r, w => by
    intro hch _
    obtain ⟨h1, h2, h3⟩ := hch
    obtain ⟨c, hc1, hc2, hc3, hc4⟩ :=
      chain_snoc_inv n g (b :: r) w h3 (by simp)
    refine ⟨c, ?_, ⟨h1, h2, hc2⟩, hc3, hc4⟩
    rw [List.getLast?_cons_cons]
    exact hc1

theorem valid_snoc_inv (n : Nat) (g : Grid) (s d : Cell) (q : List Cell)
    (hv : ValidPath n g s d (q ++ [d])) (hq : q ≠ []) :
    ∃ u, q.getLast? = some u ∧ ValidPath n g s u q ∧ adjStep u d ∧
      w3_ok n g d := by
  obtain ⟨h1, h2, h3⟩ := hv
  obtain ⟨u, hu1, hu2, hu3, hu4⟩ := chain_snoc_inv n g q d h3 hq
  refine ⟨u, hu1, ⟨?_, hu1, hu2⟩, hu3, hu4⟩
  cases q with
  | nil => exact absurd rfl hq
  | cons a l => simpa using h1

theorem valid_head_eq (n : Nat) (g : Grid) (s d : Cell) (p : List Cell)
    (hv : ValidPath n g s d p) (hp : p.length = 1) : d = s := by
  obtain ⟨h1, h2, _⟩ := hv
  cases p with
  | nil => simp at hp
  | cons a l =>
    cases l with
    | nil =>
      simp only [List.head?_cons, Option.some.injEq] at h1
      simp only [List.getLast?_singleton, Option.some.injEq] at h2
      rw [← h1, ← h2]
    | cons b r => simp at hp

theorem valid_nonempty (n : Nat) (g : Grid) (s d : Cell) (p : List Cell)
    (hv : ValidPath n g s d p) : p ≠ [] := by
  intro h
  subst h
  simp [ValidPath] at hv

theorem valid_eq_dropLast (n : Nat) (g : Grid) (s d : Cell) (p : List Cell)
    (hv : ValidPath n g s d p) : p = p.dropLast ++ [d] := by
  have hne : p ≠ [] := valid_nonempty n g s d p hv
  obtain ⟨_, h2, _⟩ := hv
  have hgl : p.getLast hne = d := by
    have h3 := List.getLast?_eq_getLast p hne
    rw [h2] at h3
    exact ((Option.some.injEq _ _).mp h3).symm
  conv_lhs => rw [← List.dropLast_append_getLast hne]
  rw [hgl]

/-! ## BFS loop invariants -/

/-- A queue entry is sound: its accumulated path extended by its cell is
a valid path from the start. -/
def entryOK (n : Nat) (g : Grid) (s : Cell) (e : W3Entry) : Prop :=
  ValidPath n g s e.1 (e.2 ++ [e.1])

/-- `dv` is the exact shortest-path edge count from `s` to `d` (a valid
path with `dv` edges exists and none is shorter). -/
def IsDist (n : Nat) (g : Grid) (s d : Cell) (dv : Nat) : Prop :=
  (∃ p, ValidPath n g s d p ∧ p.length = dv + 1) ∧
  ∀ p, ValidPath n g s d p → dv + 1 ≤ p.length

/-- Every queue entry is sound. -/
def QSound (n : Nat) (g : Grid) (s : Cell) (q : List W3Entry) : Prop :=
  ∀ e ∈ q, entryOK n g s e

/-- The BFS queue is two consecutive levels `k` and `k+1` (the `k` block
first, nonempty unless the queue is empty), and every cell with a valid
path of at most `k` cells is already visited. -/
def Blocks (n : Nat) (g : Grid) (s : Cell) (q : List W3Entry)
    (vis : Finset Cell) : Prop :=
  ∃ k A B, q = A ++ B ∧ (∀ e ∈ A, e.2.length = k) ∧
    (∀ e ∈ B, e.2.length = k + 1) ∧ (A = [] → B = []) ∧
    (∀ d p, ValidPath n g s d p → p.length ≤ k → d ∈ vis)

/-- Every visited cell has been fully expanded: its exact distance `dv`
is known and each of its passable neighbours is visited or still queued
with at most `dv + 1` path cells. -/
def VisNbr (n : Nat) (g : Grid) (s : Cell) (q : List W3Entry)
    (vis : Finset Cell) : Prop :=
  ∀ v ∈ vis, ∃ dv, IsDist n g s v dv ∧
    ∀ w ∈ w3_neighbors n g v, w ∈ vis ∨
      ∃ e ∈ q, e.1 = w ∧ e.2.length ≤ dv + 1

/-- The full BFS loop invariant: queue soundness, the two-block level
structure, full expansion of visited cells, the start accounted for, and
the goal never visited. -/
def BfsInv (n : Nat) (g : Grid) (s t : Cell) (q : List W3Entry)
    (vis : Finset Cell) : Prop :=
  QSound n g s q ∧ Blocks n g s q vis ∧ VisNbr n g s q vis ∧
    ((∃ e ∈ q, e.1 = s) ∨ s ∈ vis) ∧ t ∉ vis

theorem vis_closed (n : Nat) (g : Grid) (s : Cell) (vis : Finset Cell)
    (hnbr : VisNbr n g s [] vis) (hs : s ∈ vis) :
    ∀ (p : List Cell) (d : Cell), ValidPath n g s d p → d ∈ vis := by
  intro p
  induction p using List.reverseRecOn with
  | nil => intro d hv; exact absurd rfl (valid_nonempty n g s d [] hv)
  | append_singleton q x ih =>
    intro d hv
    have hd : d = x := by
      obtain ⟨_, h2, _⟩ := hv
      rw [List.getLast?_concat] at h2
      exact ((Option.some.injEq _ _).mp h2).symm
    subst hd
    cases hq : q with
    | nil =>
      subst hq
      have := valid_head_eq n g s d [d] hv (by simp)
      rw [this]
      exact hs
    | cons a l =>
      obtain ⟨u, _, hu2, hu3, hu4⟩ :=
        valid_snoc_inv n g s d q (by rw [hq] at hv ⊢; exact hv) (by simp [hq])
      have huvis : u ∈ vis := by
        rw [hq] at ih hu2
        exact ih u hu2
      obtain ⟨du, _, hcl⟩ := hnbr u huvis
      have hmem : d ∈ w3_neighbors n g u := (w3_neighbors_mem n g u d).mpr ⟨hu3, hu4⟩
      rcases hcl d hmem with hin | ⟨e, he, _⟩
      · exact hin
      · simp at he

theorem level_up (n : Nat) (g : Grid) (s : Cell) (k : Nat) (c : Cell)
    (p0 : List Cell) (B : List W3Entry) (vis vis' : Finset Cell)
    (hhead : ValidPath n g s c (p0 ++ [c])) (hlen : p0.length = k)
    (hvlow : ∀ d p, ValidPath n g s d p → p.length ≤ k → d ∈ vis)
    (hnbr : VisNbr n g s ((c, p0) :: B) vis)
    (hB : ∀ e ∈ B, e.2.length = k + 1)
    (hcvis : c ∈ vis') (hsub : vis ⊆ vis') :
    ∀ d p, ValidPath n g s d p → p.length ≤ k + 1 → d ∈ vis' := by
  intro d p hv hple
  by_cases hk : p.length ≤ k
  · exact hsub (hvlow d p hv hk)
  · have hpl : p.length = k + 1 := by omega
    by_cases hk0 : k = 0
    · subst hk0
      have hds : d = s := valid_head_eq n g s d p hv (by omega)
      have hp0 : p0 = [] := List.length_eq_zero.mp hlen
      subst hp0
      have hcs : c = s := valid_head_eq n g s c [c] hhead (by simp)
      rw [hds, ← hcs]
      exact hcvis
    · have hdrop := valid_eq_dropLast n g s d p hv
      have hql : p.dropLast.length = k := by
        rw [List.length_dropLast]
        omega
      have hqne : p.dropLast ≠ [] := by
        intro hh
        rw [hh] at hql
        simp at hql
        omega
      obtain ⟨u, _, hu2, hu3, hu4⟩ :=
        valid_snoc_inv n g s d p.dropLast (by rw [← hdrop]; exact hv) hqne
      have huvis : u ∈ vis := hvlow u p.dropLast hu2 (le_of_eq hql)
      obtain ⟨du, hdu, hcl⟩ := hnbr u huvis
      have hdule : du + 1 ≤ k := by
        have := hdu.2 p.dropLast hu2
        omega
      have hmem : d ∈ w3_neighbors n g u := (w3_neighbors_mem n g u d).mpr ⟨hu3, hu4⟩
      rcases hcl d hmem with hin | ⟨e, he, he1, he2⟩
      · exact hsub hin
      · rcases List.mem_cons.mp he with rfl | heB
        · rw [← he1]
          exact hcvis
        · have := hB e heB
          omega

theorem bfsAux_spec (n : Nat) (g : Grid) (s t : Cell) :
    ∀ (fuel : Nat) (q : List W3Entry) (vis : Finset Cell),
      BfsInv n g s t q vis →
      ∀ r, bfsAux n g t fuel q vis = some r →
        (r = [] ∧ ¬ W3Reach n g s t) ∨
        (ValidPath n g s t r ∧
          ∀ p, ValidPath n g s t p → r.length ≤ p.length) := by
  intro fuel
  induction fuel with
  | zero =>
    intro q vis _ r hr
    simp [bfsAux] at hr
  | succ fuel ih =>
    intro q vis hinv r hr
    obtain ⟨hsound, ⟨k, A, B, hq, hA, hB, hcanon, hvlow⟩, hnbr, hstart, hgoal⟩ :=
      hinv
    cases q with
    | nil =>
      rw [bfsAux] at hr
      have hr0 : r = [] := by
        injection hr with h
        exact h.symm
      left
      refine ⟨hr0, ?_⟩
      rintro ⟨p, hp⟩
      have hs : s ∈ vis := by
        rcases hstart with ⟨e, he, _⟩ | h
        · simp at he
        · exact h
      exact hgoal (vis_closed n g s vis hnbr hs p t hp)
    | cons a rest =>
      obtain ⟨c, p0⟩ := a
      have hAB : A ≠ [] := by
        intro h
        rw [h, hcanon h] at hq
        simp at hq
      obtain ⟨a0, A', rfl⟩ : ∃ a0 A', A = a0 :: A' := by
        cases A with
        | nil => exact absurd rfl hAB
        | cons a0 A' => exact ⟨a0, A', rfl⟩
      rw [List.cons_append] at hq
      have ha0 : a0 = (c, p0) ∧ rest = A' ++ B := by
        have h1 := List.cons.injEq (c, p0) rest a0 (A' ++ B) ▸ hq
        exact ⟨h1.1.symm, h1.2⟩
      obtain ⟨rfl, hrest⟩ := ha0
      have hp0len : p0.length = k := hA (c, p0) (by simp)
      have hheadok : ValidPath n g s c (p0 ++ [c]) :=
        hsound (c, p0) (by simp)
      rw [bfsAux] at hr
      by_cases hct : c = t
      · rw [if_pos hct] at hr
        have hrr : r = p0 ++ [c] := by
          injection hr with h
          exact h.symm
        right
        subst hct
        refine ⟨hrr ▸ hheadok, ?_⟩
        intro p hp
        have hlong : ¬ p.length ≤ k := fun hle => hgoal (hvlow c p hp hle)
        rw [hrr, List.length_append]
        simp only [List.length_cons, List.length_nil]
        omega
      · rw [if_neg hct] at hr
        by_cases hcv : c ∈ vis
        · rw [if_pos hcv] at hr
          apply ih rest vis ?_ r hr
          refine ⟨fun e he => hsound e (List.mem_cons_of_mem _ he), ?_, ?_, ?_, hgoal⟩
          · by_cases hA' : A' = []
            · subst hA'
              simp only [List.nil_append] at hrest
              refine ⟨k + 1, B, [], by simp [hrest], hB, by simp, fun _ => rfl, ?_⟩
              exact level_up n g s k c p0 B vis vis hheadok hp0len hvlow
                (by rw [hrest] at hnbr; exact hnbr) hB hcv (subset_refl vis)
            · exact ⟨k, A', B, hrest, fun e he => hA e (by simp [he]), hB,
                fun h => absurd h hA', hvlow⟩
          · intro v hv
            obtain ⟨dv, hdv, hcl⟩ := hnbr v hv
            refine ⟨dv, hdv, fun w hw => ?_⟩
            rcases hcl w hw with hin | ⟨e, he, he1, he2⟩
            · exact Or.inl hin
            · rcases List.mem_cons.mp he with rfl | heR
              · exact Or.inl (he1 ▸ hcv)
              · exact Or.inr ⟨e, heR, he1, he2⟩
          · rcases hstart with ⟨e, he, hes⟩ | hs
            · rcases List.mem_cons.mp he with rfl | heR
              · exact Or.inr (hes ▸ hcv)
              · exact Or.inl ⟨e, heR, hes⟩
            · exact Or.inr hs
        · rw [if_neg hcv] at hr
          have hdistc : IsDist n g s c k := by
            refine ⟨⟨p0 ++ [c], hheadok, by simp [hp0len]⟩, ?_⟩
            intro p hp
            by_contra hlt
            exact hcv (hvlow c p hp (by omega))
          apply ih _ _ ?_ r hr
          refine ⟨?_, ?_, ?_, ?_, ?_⟩
          · intro e he
            rcases List.mem_append.mp he with heR | heN
            · exact hsound e (List.mem_cons_of_mem _ heR)
            · obtain ⟨w, hw, rfl⟩ := List.mem_map.mp heN
              exact valid_snoc n g s c w (p0 ++ [c]) hheadok
                ((w3_neighbors_mem n g c w).mp hw).1
                ((w3_neighbors_mem n g c w).mp hw).2
          · by_cases hA' : A' = []
            · subst hA'
              simp only [List.nil_append] at hrest
              refine ⟨k + 1,
                B ++ (w3_neighbors n g c).map (fun nc => (nc, p0 ++ [c])), [],
                by simp [hrest], ?_, by simp, fun _ => rfl, ?_⟩
              · intro e he
                rcases List.mem_append.mp he with heB | heN
                · exact hB e heB
                · obtain ⟨w, _, rfl⟩ := List.mem_map.mp heN
                  simp [hp0len]
              · exact level_up n g s k c p0 B vis (insert c vis) hheadok
                  hp0len hvlow (by rw [hrest] at hnbr; exact hnbr) hB
                  (Finset.mem_insert_self c vis) (Finset.subset_insert c vis)
            · refine ⟨k, A',
                B ++ (w3_neighbors n g c).map (fun nc => (nc, p0 ++ [c])),
                by rw [hrest, List.append_assoc],
                fun e he => hA e (by simp [he]), ?_,
                fun h => absurd h hA', ?_⟩
              · intro e he
                rcases List.mem_append.mp he with heB | heN
                · exact hB e heB
                · obtain ⟨w, _, rfl⟩ := List.mem_map.mp heN
                  simp [hp0len]
              · exact fun d p hv hl =>
                  Finset.mem_insert_of_mem (hvlow d p hv hl)
          · intro v hv
            rcases Finset.mem_insert.mp hv with rfl | hvv
            · refine ⟨k, hdistc, fun w hw => Or.inr ?_⟩
              refine ⟨(w, p0 ++ [v]), ?_, rfl, by simp [hp0len]⟩
              exact List.mem_append.mpr (Or.inr (List.mem_map.mpr ⟨w, hw, rfl⟩))
            · obtain ⟨dv, hdv, hcl⟩ := hnbr v hvv
              refine ⟨dv, hdv, fun w hw => ?_⟩
              rcases hcl w hw with hin | ⟨e, he, he1, he2⟩
              · exact Or.inl (Finset.mem_insert_of_mem hin)
              · rcases List.mem_cons.mp he with rfl | heR
                · exact Or.inl (he1 ▸ Finset.mem_insert_self c vis)
                · exact Or.inr ⟨e, List.mem_append.mpr (Or.inl heR), he1, he2⟩
          · rcases hstart with ⟨e, he, hes⟩ | hs
            · rcases List.mem_cons.mp he with rfl | heR
              · exact Or.inr (hes ▸ Finset.mem_insert_self c vis)
              · exact Or.inl ⟨e, List.mem_append.mpr (Or.inl heR), hes⟩
            · exact Or.inr (Finset.mem_insert_of_mem hs)
          · intro hmem
            rcases Finset.mem_insert.mp hmem with rfl | hh
            · exact hct rfl
            · exact hgoal hh

theorem w3_neighbors_len_le (n : Nat) (g : Grid) (c : Cell) :
    (w3_neighbors n g c).length ≤ 4 := by
  unfold w3_neighbors
  have h := List.length_filter_le
    (fun nc => decide (inB n nc ∧ w3_passable g nc))
    (w3_dirs.map (fun d => (c.1 + d.1, c.2 + d.2)))
  rw [List.length_map] at h
  exact h

theorem card_allCells (n : Nat) : (allCells n).card = n * n := by
  unfold allCells
  rw [Finset.card_product, Int.card_Icc]
  simp only [sub_zero]
  have he : ((n : Int) - 1 + 1).toNat = n := by omega
  rw [he]

theorem card_spaceA (n : Nat) (s : Cell) : (spaceA n s).card ≤ n * n + 1 := by
  unfold spaceA
  have h1 := Finset.card_insert_le s (allCells n)
  have h2 := card_allCells n
  omega

theorem bfsAux_total (n : Nat) (g : Grid) (s t : Cell) :
    ∀ (fuel : Nat) (q : List W3Entry) (vis : Finset Cell),
      (∀ e ∈ q, e.1 ∈ spaceA n s) → vis ⊆ spaceA n s →
      q.length + 4 * ((spaceA n s).card - vis.card) + 1 ≤ fuel →
      (bfsAux n g t fuel q vis).isSome := by
  intro fuel
  induction fuel with
  | zero => intro q vis _ _ hf; omega
  | succ fuel ih =>
    intro q vis hq hvis hf
    cases q with
    | nil => rw [bfsAux]; rfl
    | cons a rest =>
      obtain ⟨c, p0⟩ := a
      rw [bfsAux]
      by_cases hct : c = t
      · rw [if_pos hct]; rfl
      · rw [if_neg hct]
        by_cases hcv : c ∈ vis
        · rw [if_pos hcv]
          apply ih rest vis (fun e he => hq e (List.mem_cons_of_mem _ he)) hvis
          simp only [List.length_cons] at hf
          omega
        · rw [if_neg hcv]
          have hcs : c ∈ spaceA n s := hq (c, p0) (by simp)
          have hcard : (insert c vis).card = vis.card + 1 :=
            Finset.card_insert_of_not_mem hcv
          have hsub : insert c vis ⊆ spaceA n s := by
            intro x hx
            rcases Finset.mem_insert.mp hx with rfl | hxx
            · exact hcs
            · exact hvis hxx
          have hlt : vis.card + 1 ≤ (spaceA n s).card :=
            hcard ▸ Finset.card_le_card hsub
          apply ih _ _ ?_ hsub
          · rw [List.length_append, List.length_map]
            have h4 := w3_neighbors_len_le n g c
            simp only [List.length_cons] at hf
            rw [hcard]
            omega
          · intro e he
            rcases List.mem_append.mp he with heR | heN
            · exact hq e (List.mem_cons_of_mem _ heR)
            · obtain ⟨w, hw, rfl⟩ := List.mem_map.mp heN
              have hok : w3_ok n g w := ((w3_neighbors_mem n g c w).mp hw).2
              exact Finset.mem_insert_of_mem (mem_allCells.mpr hok.1)

theorem bfs_search_total (n : Nat) (g : Grid) (s t : Cell) :
    ∃ r, bfsAux n g t (w3_fuel n) [(s, [])] ∅ = some r := by
  have h := bfsAux_total n g s t (w3_fuel n) [(s, [])] ∅
    (fun e he => by
      simp only [List.mem_singleton] at he
      subst he
      exact Finset.mem_insert_self s _)
    (Finset.empty_subset _) ?_
  · obtain ⟨r, hr⟩ := Option.isSome_iff_exists.mp h
    exact ⟨r, hr⟩
  · have := card_spaceA n s
    unfold w3_fuel
    simp only [List.length_singleton, Finset.card_empty]
    omega

theorem bfsInv_init (n : Nat) (g : Grid) (s t : Cell) :
    BfsInv n g s t [(s, [])] ∅ := by
  refine ⟨?_, ⟨0, [(s, [])], [], rfl, ?_, by simp, fun _ => rfl, ?_⟩, ?_, ?_, ?_⟩
  · intro e he
    simp only [List.mem_singleton] at he
    subst he
    exact valid_single n g s
  · intro e he
    simp only [List.mem_singleton] at he
    subst he
    rfl
  · intro d p hv hl
    have := valid_nonempty n g s d p hv
    cases p with
    | nil => exact absurd rfl this
    | cons a l => simp at hl
  · intro v hv
    simp at hv
  · exact Or.inl ⟨(s, []), by simp, rfl⟩
  · simp

theorem bfs_search_shortest (n : Nat) (g : Grid) (s t : Cell)
    (h : W3Reach n g s t) :
    ValidPath n g s t (bfs_search n g s t) ∧
      ∀ p, ValidPath n g s t p → (bfs_search n g s t).length ≤ p.length := by
  obtain ⟨r, hr⟩ := bfs_search_total n g s t
  have hres : bfs_search n g s t = r := by
    unfold bfs_search
    rw [hr]
    rfl
  rcases bfsAux_spec n g s t (w3_fuel n) [(s, [])] ∅ (bfsInv_init n g s t) r hr
    with ⟨_, hnr⟩ | ⟨hv, hmin⟩
  · exact absurd h hnr
  · rw [hres]
    exact ⟨hv, hmin⟩

theorem bfs_search_unreachable (n : Nat) (g : Grid) (s t : Cell)
    (h : ¬ W3Reach n g s t) : bfs_search n g s t = [] := by
  obtain ⟨r, hr⟩ := bfs_search_total n g s t
  have hres : bfs_search n g s t = r := by
    unfold bfs_search
    rw [hr]
    rfl
  rcases bfsAux_spec n g s t (w3_fuel n) [(s, [])] ∅ (bfsInv_init n g s t) r hr
    with ⟨he, _⟩ | ⟨hv, _⟩
  · rw [hres, he]
  · exact absurd ⟨r, hv⟩ h

theorem bfs_search_self (n : Nat) (g : Grid) (s : Cell) :
    bfs_search n g s s = [s] := by
  unfold bfs_search w3_fuel
  rw [show 4 * (n * n + 1) + 2 = (4 * (n * n + 1) + 1) + 1 from rfl]
  rw [bfsAux]
  rw [if_pos rfl]
  rfl

/-! ## Snake BFS: totality and soundness -/

theorem followDirs_append (c : Cell) (p : List SnakeDir) (d : SnakeDir) :
    followDirs c (p ++ [d]) = applyDir (followDirs c p) d := by
  induction p generalizing c with
  | nil => rfl
  | cons e p ih => rw [List.cons_append, followDirs, followDirs, ih]

theorem snakeChainOk_append (snake : List Cell) (c : Cell) (p : List SnakeDir)
    (d : SnakeDir) (hch : snakeChainOk snake c p)
    (hok : snakeOk snake (applyDir (followDirs c p) d)) :
    snakeChainOk snake c (p ++ [d]) := by
  induction p generalizing c with
  | nil => exact ⟨hok, trivial⟩
  | cons e p ih =>
    obtain ⟨h1, h2⟩ := hch
    exact ⟨h1, ih (applyDir c e) h2 hok⟩

theorem applyDir_off (c : Cell) (d : SnakeDir) (off : Int × Int)
    (hmem : (d, off) ∈ snakeDirs) :
    ((c.1 + off.1 * 20, c.2 + off.2 * 20) : Cell) = applyDir c d := by
  unfold snakeDirs at hmem
  simp only [List.mem_cons, List.mem_singleton, Prod.mk.injEq,
    List.mem_nil_iff, or_false] at hmem
  rcases hmem with ⟨rfl, rfl⟩ | ⟨rfl, rfl⟩ | ⟨rfl, rfl⟩ | ⟨rfl, rfl⟩ <;>
    (unfold applyDir; simp only [Prod.mk.injEq]; constructor <;> ring)

/-- The queue/visited facts `snakeExpand` guarantees: visited only grows,
stays in bounds, and the appended entries are sound extensions of the
expanded entry. -/
theorem snakeExpand_vis (snake : List Cell) (c : Cell) (p : List SnakeDir) :
    ∀ (ds : List (SnakeDir × (Int × Int))) (vis : Finset Cell),
      vis ⊆ (snakeExpand snake c p ds vis).2 ∧
      (snakeExpand snake c p ds vis).2 ⊆
        vis ∪ allCells SNAKE_WH ∧
      (snakeExpand snake c p ds vis).2.card =
        (snakeExpand snake c p ds vis).1.length + vis.card
  | [], vis => ⟨subset_refl _, by simp [snakeExpand], by simp [snakeExpand]⟩
  | (d, off) :: ds, vis => by
    rw [snakeExpand]
    by_cases hc : ((c.1 + off.1 * 20, c.2 + off.2 * 20) : Cell) ∉ vis ∧
        0 ≤ c.1 + off.1 * 20 ∧ c.1 + off.1 * 20 < (SNAKE_WH : Int) ∧
        0 ≤ c.2 + off.2 * 20 ∧ c.2 + off.2 * 20 < (SNAKE_WH : Int) ∧
        ((c.1 + off.1 * 20, c.2 + off.2 * 20) : Cell) ∉ snake
    · rw [if_pos hc]
      obtain ⟨ih1, ih2, ih3⟩ := snakeExpand_vis snake c p ds
        (insert (c.1 + off.1 * 20, c.2 + off.2 * 20) vis)
      refine ⟨?_, ?_, ?_⟩
      · exact subset_trans (Finset.subset_insert _ _) ih1
      · intro x hx
        rcases Finset.mem_union.mp (ih2 hx) with hxx | hxx
        · rcases Finset.mem_insert.mp hxx with rfl | hxv
          · exact Finset.mem_union.mpr (Or.inr (mem_allCells.mpr
              ⟨by simpa using hc.2.1, by simpa using hc.2.2.1,
               by simpa using hc.2.2.2.1, by simpa using hc.2.2.2.2.1⟩))
          · exact Finset.mem_union.mpr (Or.inl hxv)
        · exact Finset.mem_union.mpr (Or.inr hxx)
      · simp only [List.length_cons]
        rw [ih3, Finset.card_insert_of_not_mem hc.1]
        omega
    · rw [if_neg hc]
      exact snakeExpand_vis snake c p ds vis

/-- Soundness of the appended entries: every entry `snakeExpand` emits
extends the popped entry by one legal move. -/
theorem snakeExpand_sound (snake : List Cell) (start c : Cell)
    (p : List SnakeDir) (hc : followDirs start p = c)
    (hch : snakeChainOk snake start p) :
    ∀ (ds : List (SnakeDir × (Int × Int))), (∀ x ∈ ds, x ∈ snakeDirs) →
      ∀ (vis : Finset Cell) (e : Cell × List SnakeDir),
      e ∈ (snakeExpand snake c p ds vis).1 →
      followDirs start e.2 = e.1 ∧ snakeChainOk snake start e.2
  | [], _ => by intro vis e he; simp [snakeExpand] at he
  | (d, off) :: ds, hds => by
    intro vis e he
    rw [snakeExpand] at he
    by_cases hcnd : ((c.1 + off.1 * 20, c.2 + off.2 * 20) : Cell) ∉ vis ∧
        0 ≤ c.1 + off.1 * 20 ∧ c.1 + off.1 * 20 < (SNAKE_WH : Int) ∧
        0 ≤ c.2 + off.2 * 20 ∧ c.2 + off.2 * 20 < (SNAKE_WH : Int) ∧
        ((c.1 + off.1 * 20, c.2 + off.2 * 20) : Cell) ∉ snake
    · rw [if_pos hcnd] at he
      rcases List.mem_cons.mp he with rfl | heR
      · have hadv : ((c.1 + off.1 * 20, c.2 + off.2 * 20) : Cell) =
            applyDir c d := applyDir_off c d off (hds (d, off) (by simp))
        constructor
        · rw [followDirs_append, hc, ← hadv]
        · apply snakeChainOk_append snake start p d hch
          rw [hc, ← hadv]
          exact ⟨by simpa using hcnd.2.1, by simpa using hcnd.2.2.1,
            by simpa using hcnd.2.2.2.1, by simpa using hcnd.2.2.2.2.1,
            hcnd.2.2.2.2.2⟩
      · exact snakeExpand_sound snake start c p hc hch ds
          (fun x hx => hds x (List.mem_cons_of_mem _ hx)) _ e heR
    · rw [if_neg hcnd] at he
      exact snakeExpand_sound snake start c p hc hch ds
        (fun x hx => hds x (List.mem_cons_of_mem _ hx)) vis e he

theorem snakeAux_total (snake : List Cell) (food : Cell) :
    ∀ (fuel : Nat) (q : List (Cell × List SnakeDir)) (vis : Finset Cell),
      vis ⊆ allCells SNAKE_WH →
      q.length + 2 * ((allCells SNAKE_WH).card - vis.card) + 1 ≤ fuel →
      (snakeAux snake food fuel q vis).isSome := by
  intro fuel
  induction fuel with
  | zero => intro q vis _ hf; omega
  | succ fuel ih =>
    intro q vis hvis hf
    cases q with
    | nil => rw [snakeAux]; rfl
    | cons a rest =>
      obtain ⟨c, p⟩ := a
      rw [snakeAux]
      by_cases hcf : c = food
      · rw [if_pos hcf]; rfl
      · rw [if_neg hcf]
        obtain ⟨h1, h2, h3⟩ := snakeExpand_vis snake c p snakeDirs vis
        have hsub : (snakeExpand snake c p snakeDirs vis).2 ⊆
            allCells SNAKE_WH := by
          intro x hx
          rcases Finset.mem_union.mp (h2 hx) with hxx | hxx
          · exact hvis hxx
          · exact hxx
        apply ih _ _ hsub
        rw [List.length_append]
        have hc1 : vis.card ≤ (snakeExpand snake c p snakeDirs vis).2.card :=
          Finset.card_le_card h1
        have hc2 : (snakeExpand snake c p snakeDirs vis).2.card ≤
            (allCells SNAKE_WH).card := Finset.card_le_card hsub
        simp only [List.length_cons] at hf
        omega

theorem snakeAux_sound (snake : List Cell) (start food : Cell) :
    ∀ (fuel : Nat) (q : List (Cell × List SnakeDir)) (vis : Finset Cell),
      (∀ e ∈ q, followDirs start e.2 = e.1 ∧ snakeChainOk snake start e.2) →
      ∀ r, snakeAux snake food fuel q vis = some r →
        r = [] ∨ SnakeReach snake start food := by
  intro fuel
  induction fuel with
  | zero => intro q vis _ r hr; simp [snakeAux] at hr
  | succ fuel ih =>
    intro q vis hq r hr
    cases q with
    | nil =>
      rw [snakeAux] at hr
      injection hr with h
      exact Or.inl h.symm
    | cons a rest =>
      obtain ⟨c, p⟩ := a
      rw [snakeAux] at hr
      by_cases hcf : c = food
      · rw [if_pos hcf] at hr
        injection hr with h
        right
        obtain ⟨he1, he2⟩ := hq (c, p) (by simp)
        exact ⟨p, he2, by rw [he1, hcf]⟩
      · rw [if_neg hcf] at hr
        apply ih _ _ ?_ r hr
        intro e he
        rcases List.mem_append.mp he with heR | heN
        · exact hq e (List.mem_cons_of_mem _ heR)
        · obtain ⟨he1, he2⟩ := hq (c, p) (by simp)
          exact snakeExpand_sound snake start c p he1 he2 snakeDirs
            (fun x hx => hx) _ e heN

theorem snake_bfs_total (snake : List Cell) (food : Cell) :
    ∃ r, snakeAux snake food snake_fuel [(snake.headI, [])] ∅ = some r := by
  have hfuel : ([((snake.headI : Cell), ([] : List SnakeDir))]).length +
      2 * ((allCells SNAKE_WH).card - (∅ : Finset Cell).card) + 1 ≤
      snake_fuel := by
    have hc := card_allCells SNAKE_WH
    unfold snake_fuel
    rw [Finset.card_empty, List.length_singleton]
    omega
  have h := snakeAux_total snake food snake_fuel [(snake.headI, [])] ∅
    (Finset.empty_subset _) hfuel
  exact Option.isSome_iff_exists.mp h

theorem snake_bfs_self (snake : List Cell) :
    snake_bfs snake snake.headI = [] := by
  unfold snake_bfs snake_fuel
  rw [show 2 * (SNAKE_WH * SNAKE_WH) + 2 = (2 * (SNAKE_WH * SNAKE_WH) + 1) + 1
    from rfl]
  rw [snakeAux]
  rw [if_pos rfl]
  rfl

theorem snake_bfs_unreachable (snake : List Cell) (food : Cell)
    (h : ¬ SnakeReach snake snake.headI food) : snake_bfs snake food = [] := by
  obtain ⟨r, hr⟩ := snake_bfs_total snake food
  have hres : snake_bfs snake food = r := by
    unfold snake_bfs
    rw [hr]
    rfl
  have hinv : ∀ e ∈ ([(snake.headI, ([] : List SnakeDir))]),
      followDirs snake.headI e.2 = e.1 ∧ snakeChainOk snake snake.headI e.2 := by
    intro e he
    simp only [List.mem_singleton] at he
    subst he
    exact ⟨rfl, trivial⟩
  rcases snakeAux_sound snake snake.headI food snake_fuel
      [(snake.headI, [])] ∅ hinv r hr with he | hreach
  · rw [hres, he]
  · exact absurd hreach h

/-! ## A* path lemmas -/

theorem get_neighbors_mem (n : Nat) (g : Grid) (c w : Cell) :
    w ∈ get_neighbors n g c ↔ adjStep c w ∧ a_ok n g w := by
  unfold get_neighbors a_dirs
  rw [List.mem_filter]
  simp only [List.mem_map, List.mem_cons, List.mem_singleton,
    decide_eq_true_eq]
  constructor
  · rintro ⟨⟨d, hd, rfl⟩, hok⟩
    refine ⟨?_, hok⟩
    obtain ⟨c1, c2⟩ := c
    simp only [List.mem_nil_iff, or_false] at hd
    unfold adjStep w3_dirs
    simp only [List.mem_cons, List.mem_singleton, List.mem_nil_iff, or_false]
    rcases hd with rfl | rfl | rfl | rfl <;> simp only [Prod.mk.injEq] <;> omega
  · rintro ⟨hadj, hok⟩
    refine ⟨⟨(w.1 - c.1, w.2 - c.2), ?_, ?_⟩, hok⟩
    · unfold adjStep w3_dirs at hadj
      simp only [List.mem_cons, List.mem_singleton, List.mem_nil_iff,
        or_false] at hadj ⊢
      tauto
    · obtain ⟨w1, w2⟩ := w
      obtain ⟨c1, c2⟩ := c
      simp only [Prod.mk.injEq]
      omega

theorem cur_not_neighbor (n : Nat) (g : Grid) (c : Cell) :
    c ∉ get_neighbors n g c := by
  intro h
  have hadj := ((get_neighbors_mem n g c c).mp h).1
  unfold adjStep w3_dirs at hadj
  simp only [sub_self, List.mem_cons, Prod.mk.injEq, List.mem_singleton,
    List.mem_nil_iff, or_false] at hadj
  omega

theorem a_valid_single (n : Nat) (g : Grid) (s : Cell) :
    AValidPath n g s s [s] := ⟨rfl, rfl, trivial⟩

theorem a_chain_snoc (n : Nat) (g : Grid) :
    ∀ (q : List Cell) (c w : Cell), a_chain n g q → q.getLast? = some c →
      adjStep c w → a_ok n g w → a_chain n g (q ++ [w])
  | [], c, w => by intro _ h; simp at h
  | [a], c, w => by
    intro _ h hadj hok
    have : a = c := by simpa using h
    subst this
    exact ⟨hadj, hok, trivial⟩
  | a :: b :: r, c, w => by
    intro hch hl hadj hok
    obtain ⟨h1, h2, h3⟩ := hch
    have hl2 : (b :: r).getLast? = some c := by
      rw [List.getLast?_cons_cons] at hl
      exact hl
    exact ⟨h1, h2, a_chain_snoc n g (b :: r) c w h3 hl2 hadj hok⟩

theorem a_valid_snoc (n : Nat) (g : Grid) (s c w : Cell) (q : List Cell)
    (hv : AValidPath n g s c q) (hadj : adjStep c w) (hok : a_ok n g w) :
    AValidPath n g s w (q ++ [w]) := by
  obtain ⟨h1, h2, h3⟩ := hv
  refine ⟨?_, ?_, a_chain_snoc n g q c w h3 h2 hadj hok⟩
  · cases q with
    | nil => simp at h1
    | cons a l => simpa using h1
  · simp

theorem a_chain_snoc_inv (n : Nat) (g : Grid) :
    ∀ (q : List Cell) (w : Cell), a_chain n g (q ++ [w]) → q ≠ [] →
      ∃ c, q.getLast? = some c ∧ a_chain n g q ∧ adjStep c w ∧ a_ok n g w
  | [], w => by intro _ h; exact absurd rfl h
  | [a], w => by
    intro hch _
    obtain ⟨h1, h2, _⟩ := hch
    exact ⟨a, rfl, trivial, h1, h2⟩
  | a :: b :: r, w => by
    intro hch _
    obtain ⟨h1, h2, h3⟩ := hch
    obtain ⟨c, hc1, hc2, hc3, hc4⟩ :=
      a_chain_snoc_inv n g (b :: r) w h3 (by simp)
    refine ⟨c, ?_, ⟨h1, h2, hc2⟩, hc3, hc4⟩
    rw [List.getLast?_cons_cons]
    exact hc1

theorem a_valid_snoc_inv (n : Nat) (g : Grid) (s d : Cell) (q : List Cell)
    (hv : AValidPath n g s d (q ++ [d])) (hq : q ≠ []) :
    ∃ u, q.getLast? = some u ∧ AValidPath n g s u q ∧ adjStep u d ∧
      a_ok n g d := by
  obtain ⟨h1, h2, h3⟩ := hv
  obtain ⟨u, hu1, hu2, hu3, hu4⟩ := a_chain_snoc_inv n g q d h3 hq
  refine ⟨u, hu1, ⟨?_, hu1, hu2⟩, hu3, hu4⟩
  cases q with
  | nil => exact absurd rfl hq
  | cons a l => simpa using h1

theorem a_valid_head_eq (n : Nat) (g : Grid) (s d : Cell) (p : List Cell)
    (hv : AValidPath n g s d p) (hp : p.length = 1) : d = s := by
  obtain ⟨h1, h2, _⟩ := hv
  cases p with
  | nil => simp at hp
  | cons a l =>
    cases l with
    | nil =>
      simp only [List.head?_cons, Option.some.injEq] at h1
      simp only [List.getLast?_singleton, Option.some.injEq] at h2
      rw [← h1, ← h2]
    | cons b r => simp at hp

theorem a_valid_nonempty (n : Nat) (g : Grid) (s d : Cell) (p : List Cell)
    (hv : AValidPath n g s d p) : p ≠ [] := by
  intro h
  subst h
  simp [AValidPath] at hv

theorem a_valid_eq_dropLast (n : Nat) (g : Grid) (s d : Cell) (p : List Cell)
    (hv : AValidPath n g s d p) : p = p.dropLast ++ [d] := by
  have hne : p ≠ [] := a_valid_nonempty n g s d p hv
  obtain ⟨_, h2, _⟩ := hv
  have hgl : p.getLast hne = d := by
    have h3 := List.getLast?_eq_getLast p hne
    rw [h2] at h3
    exact ((Option.some.injEq _ _).mp h3).symm
  conv_lhs => rw [← List.dropLast_append_getLast hne]
  rw [hgl]

/-! ## A* loop invariant -/

/-- `GSle gs gs'`: every `g_score` binding survives with a value that is
no larger (relaxation only ever lowers scores). -/
def GSle (gs gs' : List (Cell × Nat)) : Prop :=
  ∀ x v, lookupA gs x = some v → ∃ v', lookupA gs' x = some v' ∧ v' ≤ v

/-- Invariant A2: every scored cell other than the start has a
`came_from` parent that is a scored neighbour-predecessor, and the
parent's score plus the connecting edge weight is at most its own. -/
def A2P (n : Nat) (g : Grid) (s : Cell) (gs : List (Cell × Nat))
    (cf : List (Cell × Cell)) : Prop :=
  ∀ x v, lookupA gs x = some v → x = s ∨
    ∃ u w, lookupA cf x = some u ∧ lookupA gs u = some w ∧
      w + stepW g x ≤ v ∧ x ∈ get_neighbors n g u

/-- Invariant A3 (with an exemption predicate for the cell being
expanded): every scored cell is exempt, still in the open list, or fully
relaxed (each neighbour scored at most score + edge weight). -/
def A3P (n : Nat) (g : Grid) (ex : Cell → Prop) (opn : List (Nat × Cell))
    (gs : List (Cell × Nat)) : Prop :=
  ∀ x v, lookupA gs x = some v → ex x ∨ (∃ f, (f, x) ∈ opn) ∨
    ∀ w ∈ get_neighbors n g x, ∃ vw, lookupA gs w = some vw ∧
      vw ≤ v + stepW g w

/-- Invariant A4: every open entry's cell has a `g_score`. -/
def A4P (opn : List (Nat × Cell)) (gs : List (Cell × Nat)) : Prop :=
  ∀ e ∈ opn, ∃ v, lookupA gs (Prod.snd e) = some v

/-- Invariant A5: if the goal has a `g_score` it is still open (the loop
has not yet popped it). -/
def A5P (goal : Cell) (opn : List (Nat × Cell))
    (gs : List (Cell × Nat)) : Prop :=
  ∀ v, lookupA gs goal = some v → ∃ f, (f, goal) ∈ opn

/-- Invariant A6: only cells of `spaceA` ever get a `g_score`. -/
def A6P (n : Nat) (s : Cell) (gs : List (Cell × Nat)) : Prop :=
  ∀ x v, lookupA gs x = some v → x ∈ spaceA n s

/-- The full loop invariant of `astarLoop`. -/
def AInv (n : Nat) (g : Grid) (s goal : Cell) (opn : List (Nat × Cell))
    (gs : List (Cell × Nat)) (cf : List (Cell × Cell)) : Prop :=
  lookupA gs s = some 0 ∧ lookupA cf s = none ∧ A2P n g s gs cf ∧
    A3P n g (fun _ => False) opn gs ∧ A4P opn gs ∧ A5P goal opn gs ∧
    A6P n s gs

theorem relaxUpd_gs (g : Grid) (goal cur : Cell) (gc : Nat) (st : AState)
    (nb x : Cell) :
    lookupA (relaxUpd g goal cur gc st nb).2.1 x =
      if x = nb then some (gc + stepW g nb) else lookupA st.2.1 x :=
  lookupA_updA nb x _ st.2.1

theorem relaxUpd_cf (g : Grid) (goal cur : Cell) (gc : Nat) (st : AState)
    (nb x : Cell) :
    lookupA (relaxUpd g goal cur gc st nb).2.2 x =
      if x = nb then some cur else lookupA st.2.2 x :=
  lookupA_updA nb x cur st.2.2

theorem relaxUpd_opn_sub (g : Grid) (goal cur : Cell) (gc : Nat)
    (st : AState) (nb : Cell) :
    ∀ e ∈ st.1, e ∈ (relaxUpd g goal cur gc st nb).1 := by
  intro e he
  unfold relaxUpd
  dsimp only
  split
  · exact he
  · exact List.mem_append_left _ he

theorem relaxUpd_opn_nb (g : Grid) (goal cur : Cell) (gc : Nat)
    (st : AState) (nb : Cell) :
    ∃ f, (f, nb) ∈ (relaxUpd g goal cur gc st nb).1 := by
  unfold relaxUpd
  dsimp only
  split
  · rename_i hany
    obtain ⟨e, he, hdec⟩ := List.any_eq_true.mp hany
    have h2 : e.2 = nb := of_decide_eq_true hdec
    exact ⟨e.1, by rw [← h2]; exact he⟩
  · exact ⟨gc + stepW g nb + heuristic nb goal,
      List.mem_append_right _ (List.mem_singleton.mpr rfl)⟩

theorem relaxUpd_opn_inv (g : Grid) (goal cur : Cell) (gc : Nat)
    (st : AState) (nb : Cell) :
    ∀ e ∈ (relaxUpd g goal cur gc st nb).1, e ∈ st.1 ∨ e.2 = nb := by
  intro e he
  unfold relaxUpd at he
  dsimp only at he
  rcases he' : st.1.any (fun x => decide (x.2 = nb)) with _ | _
  · rw [he'] at he
    simp only [Bool.false_eq_true, if_false] at he
    rcases List.mem_append.mp he with h | h
    · exact Or.inl h
    · right
      rw [List.mem_singleton.mp h]
  · rw [he'] at he
    simp only [if_true] at he
    exact Or.inl he

theorem relaxUpd_pres (n : Nat) (g : Grid) (s goal cur : Cell) (gc : Nat)
    (st : AState) (nb : Cell)
    (hnb : nb ∈ get_neighbors n g cur)
    (hncur : nb ≠ cur) (hns : nb ≠ s)
    (hcur : lookupA st.2.1 cur = some gc)
    (hs : lookupA st.2.1 s = some 0)
    (hcfs : lookupA st.2.2 s = none)
    (h2 : A2P n g s st.2.1 st.2.2)
    (h3 : A3P n g (fun c => c = cur) st.1 st.2.1)
    (h4 : A4P st.1 st.2.1)
    (h5 : A5P goal st.1 st.2.1)
    (h6 : A6P n s st.2.1)
    (hbound : ∀ gn, lookupA st.2.1 nb = some gn → gc + stepW g nb ≤ gn) :
    lookupA (relaxUpd g goal cur gc st nb).2.1 cur = some gc ∧
    lookupA (relaxUpd g goal cur gc st nb).2.1 s = some 0 ∧
    A2P n g s (relaxUpd g goal cur gc st nb).2.1
      (relaxUpd g goal cur gc st nb).2.2 ∧
    A3P n g (fun c => c = cur) (relaxUpd g goal cur gc st nb).1
      (relaxUpd g goal cur gc st nb).2.1 ∧
    A4P (relaxUpd g goal cur gc st nb).1
      (relaxUpd g goal cur gc st nb).2.1 ∧
    A5P goal (relaxUpd g goal cur gc st nb).1
      (relaxUpd g goal cur gc st nb).2.1 ∧
    A6P n s (relaxUpd g goal cur gc st nb).2.1 ∧
    GSle st.2.1 (relaxUpd g goal cur gc st nb).2.1 ∧
    (∃ vw, lookupA (relaxUpd g goal cur gc st nb).2.1 nb = some vw ∧
      vw ≤ gc + stepW g nb) ∧
    (∀ e ∈ st.1, e ∈ (relaxUpd g goal cur gc st nb).1) ∧
    lookupA (relaxUpd g goal cur gc st nb).2.2 s = none := by
  refine ⟨?_, ?_, ?_, ?_, ?_, ?_, ?_, ?_, ?_,
    relaxUpd_opn_sub g goal cur gc st nb, ?_⟩
  · rw [relaxUpd_gs, if_neg (fun h => hncur h.symm)]
    exact hcur
  · rw [relaxUpd_gs, if_neg (fun h => hns h.symm)]
    exact hs
  · intro x v hx
    rw [relaxUpd_gs] at hx
    by_cases hxnb : x = nb
    · subst hxnb
      rw [if_pos rfl] at hx
      have hv : gc + stepW g x = v := Option.some.inj hx
      right
      refine ⟨cur, gc, ?_, ?_, ?_, hnb⟩
      · rw [relaxUpd_cf, if_pos rfl]
      · rw [relaxUpd_gs, if_neg (fun h => hncur h.symm)]
        exact hcur
      · omega
    · rw [if_neg hxnb] at hx
      rcases h2 x v hx with hxs | ⟨u, w, hcf, hgs, hle, hmem⟩
      · exact Or.inl hxs
      · right
        by_cases hunb : u = nb
        · subst hunb
          have hb := hbound w hgs
          refine ⟨u, gc + stepW g u, ?_, ?_, ?_, hmem⟩
          · rw [relaxUpd_cf, if_neg hxnb]
            exact hcf
          · rw [relaxUpd_gs, if_pos rfl]
          · omega
        · refine ⟨u, w, ?_, ?_, hle, hmem⟩
          · rw [relaxUpd_cf, if_neg hxnb]
            exact hcf
          · rw [relaxUpd_gs, if_neg hunb]
            exact hgs
  · intro x v hx
    rw [relaxUpd_gs] at hx
    by_cases hxnb : x = nb
    · subst hxnb
      exact Or.inr (Or.inl (relaxUpd_opn_nb g goal cur gc st x))
    · rw [if_neg hxnb] at hx
      rcases h3 x v hx with hex | ⟨f, hf⟩ | hrel
      · exact Or.inl hex
      · exact Or.inr (Or.inl ⟨f, relaxUpd_opn_sub g goal cur gc st nb _ hf⟩)
      · right; right
        intro w hw
        rcases hrel w hw with ⟨vw, hvw, hvwle⟩
        by_cases hwnb : w = nb
        · subst hwnb
          refine ⟨gc + stepW g w, by rw [relaxUpd_gs, if_pos rfl], ?_⟩
          have := hbound vw hvw
          omega
        · exact ⟨vw, by rw [relaxUpd_gs, if_neg hwnb]; exact hvw, hvwle⟩
  · intro e he
    rcases relaxUpd_opn_inv g goal cur gc st nb e he with h | h
    · obtain ⟨v, hv⟩ := h4 e h
      by_cases henb : e.2 = nb
      · exact ⟨gc + stepW g nb, by rw [relaxUpd_gs, if_pos henb]⟩
      · exact ⟨v, by rw [relaxUpd_gs, if_neg henb]; exact hv⟩
    · exact ⟨gc + stepW g nb, by rw [relaxUpd_gs, if_pos h]⟩
  · intro v hv
    rw [relaxUpd_gs] at hv
    by_cases hgnb : goal = nb
    · subst hgnb
      exact relaxUpd_opn_nb g goal cur gc st goal
    · rw [if_neg hgnb] at hv
      obtain ⟨f, hf⟩ := h5 v hv
      exact ⟨f, relaxUpd_opn_sub g goal cur gc st nb _ hf⟩
  · intro x v hx
    rw [relaxUpd_gs] at hx
    by_cases hxnb : x = nb
    · subst hxnb
      exact get_neighbors_spaceA n s g cur x hnb
    · rw [if_neg hxnb] at hx
      exact h6 x v hx
  · intro x v hx
    by_cases hxnb : x = nb
    · subst hxnb
      exact ⟨gc + stepW g x, by rw [relaxUpd_gs, if_pos rfl], hbound v hx⟩
    · exact ⟨v, by rw [relaxUpd_gs, if_neg hxnb]; exact hx, le_refl v⟩
  · exact ⟨gc + stepW g nb, by rw [relaxUpd_gs, if_pos rfl], le_refl _⟩
  · rw [relaxUpd_cf, if_neg (fun h => hns h.symm)]
    exact hcfs

theorem relaxOne_pres (n : Nat) (g : Grid) (s goal cur : Cell) (gc : Nat)
    (st : AState) (nb : Cell)
    (hnb : nb ∈ get_neighbors n g cur)
    (hcur : lookupA st.2.1 cur = some gc)
    (hs : lookupA st.2.1 s = some 0)
    (hcfs : lookupA st.2.2 s = none)
    (h2 : A2P n g s st.2.1 st.2.2)
    (h3 : A3P n g (fun c => c = cur) st.1 st.2.1)
    (h4 : A4P st.1 st.2.1)
    (h5 : A5P goal st.1 st.2.1)
    (h6 : A6P n s st.2.1) :
    lookupA (relaxOne g goal cur gc st nb).2.1 cur = some gc ∧
    lookupA (relaxOne g goal cur gc st nb).2.1 s = some 0 ∧
    A2P n g s (relaxOne g goal cur gc st nb).2.1
      (relaxOne g goal cur gc st nb).2.2 ∧
    A3P n g (fun c => c = cur) (relaxOne g goal cur gc st nb).1
      (relaxOne g goal cur gc st nb).2.1 ∧
    A4P (relaxOne g goal cur gc st nb).1
      (relaxOne g goal cur gc st nb).2.1 ∧
    A5P goal (relaxOne g goal cur gc st nb).1
      (relaxOne g goal cur gc st nb).2.1 ∧
    A6P n s (relaxOne g goal cur gc st nb).2.1 ∧
    GSle st.2.1 (relaxOne g goal cur gc st nb).2.1 ∧
    (∃ vw, lookupA (relaxOne g goal cur gc st nb).2.1 nb = some vw ∧
      vw ≤ gc + stepW g nb) ∧
    (∀ e ∈ st.1, e ∈ (relaxOne g goal cur gc st nb).1) ∧
    lookupA (relaxOne g goal cur gc st nb).2.2 s = none := by
  have hncur : nb ≠ cur := fun h => cur_not_neighbor n g cur (h ▸ hnb)
  unfold relaxOne
  cases hgn : lookupA st.2.1 nb with
  | none =>
    have hns : nb ≠ s := by
      intro h
      rw [h, hs] at hgn
      cases hgn
    exact relaxUpd_pres n g s goal cur gc st nb hnb hncur hns hcur hs hcfs
      h2 h3 h4 h5 h6 (fun gn h => by rw [hgn] at h; cases h)
  | some gn =>
    dsimp only
    by_cases hlt : gc + stepW g nb < gn
    · rw [if_pos hlt]
      have hns : nb ≠ s := by
        intro h
        rw [h, hs] at hgn
        have h0 := Option.some.inj hgn
        omega
      exact relaxUpd_pres n g s goal cur gc st nb hnb hncur hns hcur hs hcfs
        h2 h3 h4 h5 h6
        (fun gn' h => by
          rw [hgn] at h
          have he := Option.some.inj h
          omega)
    · rw [if_neg hlt]
      exact ⟨hcur, hs, h2, h3, h4, h5, h6,
        fun x v hx => ⟨v, hx, le_refl v⟩, ⟨gn, hgn, by omega⟩,
        fun e he => he, hcfs⟩

theorem relaxList_pres (n : Nat) (g : Grid) (s goal cur : Cell) (gc : Nat) :
    ∀ (nbs : List Cell) (st : AState),
      (∀ x ∈ nbs, x ∈ get_neighbors n g cur) →
      lookupA st.2.1 cur = some gc →
      lookupA st.2.1 s = some 0 →
      lookupA st.2.2 s = none →
      A2P n g s st.2.1 st.2.2 →
      A3P n g (fun c => c = cur) st.1 st.2.1 →
      A4P st.1 st.2.1 →
      A5P goal st.1 st.2.1 →
      A6P n s st.2.1 →
      lookupA (relaxList g goal cur gc nbs st).2.1 cur = some gc ∧
      lookupA (relaxList g goal cur gc nbs st).2.1 s = some 0 ∧
      A2P n g s (relaxList g goal cur gc nbs st).2.1
        (relaxList g goal cur gc nbs st).2.2 ∧
      A3P n g (fun c => c = cur) (relaxList g goal cur gc nbs st).1
        (relaxList g goal cur gc nbs st).2.1 ∧
      A4P (relaxList g goal cur gc nbs st).1
        (relaxList g goal cur gc nbs st).2.1 ∧
      A5P goal (relaxList g goal cur gc nbs st).1
        (relaxList g goal cur gc nbs st).2.1 ∧
      A6P n s (relaxList g goal cur gc nbs st).2.1 ∧
      GSle st.2.1 (relaxList g goal cur gc nbs st).2.1 ∧
      (∀ w ∈ nbs, ∃ vw,
        lookupA (relaxList g goal cur gc nbs st).2.1 w = some vw ∧
          vw ≤ gc + stepW g w) ∧
      lookupA (relaxList g goal cur gc nbs st).2.2 s = none
  | [], st => by
    intro _ hcur hs hcfs h2 h3 h4 h5 h6
    exact ⟨hcur, hs, h2, h3, h4, h5, h6, fun x v hx => ⟨v, hx, le_refl v⟩,
      fun w hw => absurd hw (List.not_mem_nil w), hcfs⟩
  | nb :: nbs, st => by
    intro hmem hcur hs hcfs h2 h3 h4 h5 h6
    obtain ⟨c1, c2, c3, c4, c5, c6, c7, c8, c9, _, c10⟩ :=
      relaxOne_pres n g s goal cur gc st nb
        (hmem nb (List.mem_cons_self nb nbs)) hcur hs hcfs h2 h3 h4 h5 h6
    obtain ⟨d1, d2, d3, d4, d5, d6, d7, d8, d9, d10⟩ :=
      relaxList_pres n g s goal cur gc nbs (relaxOne g goal cur gc st nb)
        (fun x hx => hmem x (List.mem_cons_of_mem nb hx)) c1 c2 c10 c3 c4 c5 c6 c7
    refine ⟨d1, d2, d3, d4, d5, d6, d7, ?_, ?_, d10⟩
    · intro x v hx
      obtain ⟨v1, hv1, l1⟩ := c8 x v hx
      obtain ⟨v2, hv2, l2⟩ := d8 x v1 hv1
      exact ⟨v2, hv2, le_trans l2 l1⟩
    · intro w hw
      rcases List.mem_cons.mp hw with rfl | hw'
      · obtain ⟨vw, hvw, hle⟩ := c9
        obtain ⟨vw', hvw', hle'⟩ := d8 w vw hvw
        exact ⟨vw', hvw', le_trans hle' hle⟩
      · exact d9 w hw'

/-- Bool test: the stored score (if any) is strictly below `v`. -/
def belowOpt (o : Option Nat) (v : Nat) : Bool :=
  match o with
  | none => false
  | some w => decide (w < v)

theorem belowOpt_iff (o : Option Nat) (v : Nat) :
    belowOpt o v = true ↔ ∃ w, o = some w ∧ w < v := by
  cases o with
  | none => simp [belowOpt]
  | some w => simp [belowOpt]

theorem reconstruct_succ (cf : List (Cell × Cell)) (s : Cell) (fuel : Nat)
    (x : Cell) :
    reconstruct cf s (fuel + 1) x =
      match lookupA cf x with
      | none => [s]
      | some prev => reconstruct cf s fuel prev ++ [x] := rfl

theorem reconstruct_ne_nil (cf : List (Cell × Cell)) (s : Cell) :
    ∀ (fuel : Nat) (x : Cell), reconstruct cf s fuel x ≠ []
  | 0, x => by simp [reconstruct]
  | fuel + 1, x => by
    rw [reconstruct_succ]
    cases lookupA cf x with
    | none => simp
    | some prev => simp

theorem reconstruct_sound (n : Nat) (g : Grid) (s : Cell)
    (gs : List (Cell × Nat)) (cf : List (Cell × Cell))
    (hcfs : lookupA cf s = none)
    (h2 : A2P n g s gs cf) (h6 : A6P n s gs) :
    ∀ (fuel : Nat) (x : Cell) (v : Nat), lookupA gs x = some v →
      ((spaceA n s).filter (fun c => belowOpt (lookupA gs c) v)).card <
        fuel →
      AValidPath n g s x (reconstruct cf s fuel x) := by
  intro fuel
  induction fuel with
  | zero => intro x v _ hcard; omega
  | succ fuel ih =>
    intro x v hx hcard
    cases hcf : lookupA cf x with
    | none =>
      have hxs : x = s := by
        rcases h2 x v hx with h | ⟨u, w, hcfx, _, _, _⟩
        · exact h
        · rw [hcf] at hcfx; cases hcfx
      subst hxs
      rw [reconstruct_succ, hcf]
      exact a_valid_single n g x
    | some prev =>
      have hxs : x ≠ s := by
        intro h
        rw [h, hcfs] at hcf
        cases hcf
      rcases h2 x v hx with h | ⟨u, w, hcfx, hgsu, hle, hmem⟩
      · exact absurd h hxs
      · rw [hcf] at hcfx
        have hpu : prev = u := Option.some.inj hcfx
        subst hpu
        have hstep : 1 ≤ stepW g x := by unfold stepW; omega
        have hwv : w < v := by omega
        have hsub : (spaceA n s).filter
            (fun c => belowOpt (lookupA gs c) w) ⊂
            (spaceA n s).filter (fun c => belowOpt (lookupA gs c) v) := by
          rw [Finset.ssubset_def]
          constructor
          · intro c hc
            rw [Finset.mem_filter] at hc ⊢
            obtain ⟨w', hw', hlt⟩ := (belowOpt_iff _ _).mp hc.2
            exact ⟨hc.1, (belowOpt_iff _ _).mpr ⟨w', hw', by omega⟩⟩
          · intro hcon
            have hpm : prev ∈ (spaceA n s).filter
                (fun c => belowOpt (lookupA gs c) v) := by
              rw [Finset.mem_filter]
              exact ⟨h6 prev w hgsu, (belowOpt_iff _ _).mpr ⟨w, hgsu, hwv⟩⟩
            have hpm2 := hcon hpm
            rw [Finset.mem_filter] at hpm2
            obtain ⟨w', hw', hlt⟩ := (belowOpt_iff _ _).mp hpm2.2
            rw [hgsu] at hw'
            have := Option.some.inj hw'
            omega
        have hcard2 : ((spaceA n s).filter
            (fun c => belowOpt (lookupA gs c) w)).card < fuel := by
          have := Finset.card_lt_card hsub
          omega
        have hv := ih prev w hgsu hcard2
        rw [reconstruct_succ, hcf]
        exact a_valid_snoc n g s prev x (reconstruct cf s fuel prev) hv
          ((get_neighbors_mem n g prev x).mp hmem).1
          ((get_neighbors_mem n g prev x).mp hmem).2

theorem gs_closed (n : Nat) (g : Grid) (s : Cell) (gs : List (Cell × Nat))
    (hs0 : lookupA gs s = some 0)
    (h3 : A3P n g (fun _ => False) [] gs) :
    ∀ (p : List Cell) (t : Cell), AValidPath n g s t p →
      ∃ v, lookupA gs t = some v := by
  intro p
  induction p using List.reverseRecOn with
  | nil => intro t hv; exact absurd rfl (a_valid_nonempty n g s t [] hv)
  | append_singleton q x ih =>
    intro t hv
    have ht : t = x := by
      obtain ⟨_, h2, _⟩ := hv
      rw [List.getLast?_concat] at h2
      exact ((Option.some.injEq _ _).mp h2).symm
    subst ht
    cases hq : q with
    | nil =>
      subst hq
      have := a_valid_head_eq n g s t [t] hv (by simp)
      rw [this]
      exact ⟨0, hs0⟩
    | cons a l =>
      obtain ⟨u, _, hu2, hu3, hu4⟩ :=
        a_valid_snoc_inv n g s t q (by rw [hq] at hv ⊢; exact hv)
          (by simp [hq])
      obtain ⟨vu, hvu⟩ := by
        rw [hq] at ih hu2
        exact ih u hu2
      rcases h3 u vu hvu with hex | ⟨f, hf⟩ | hrel
      · exact hex.elim
      · exact absurd hf (List.not_mem_nil _)
      · obtain ⟨vt, hvt, _⟩ :=
          hrel t ((get_neighbors_mem n g u t).mpr ⟨hu3, hu4⟩)
        exact ⟨vt, hvt⟩

theorem astarLoop_nil (n : Nat) (g : Grid) (s goal : Cell)
    (gs : List (Cell × Nat)) (cf : List (Cell × Cell)) :
    astarLoop n g s goal [] gs cf = [] := by
  rw [astarLoop]

theorem astarLoop_goal (n : Nat) (g : Grid) (s goal : Cell)
    (o : Nat × Cell) (os : List (Nat × Cell)) (gs : List (Cell × Nat))
    (cf : List (Cell × Cell)) (h : (minEntry o os).2 = goal) :
    astarLoop n g s goal (o :: os) gs cf =
      reconstruct cf s (n * n + 2) (minEntry o os).2 := by
  rw [astarLoop]
  simp only [h, if_true]

theorem astarLoop_step (n : Nat) (g : Grid) (s goal : Cell)
    (o : Nat × Cell) (os : List (Nat × Cell)) (gs : List (Cell × Nat))
    (cf : List (Cell × Cell)) (h : ¬(minEntry o os).2 = goal) :
    astarLoop n g s goal (o :: os) gs cf =
      astarLoop n g s goal
        (relaxList g goal (minEntry o os).2 ((lookupA gs (minEntry o os).2).getD 0)
          (get_neighbors n g (minEntry o os).2)
          ((o :: os).filter (fun x => decide (x.2 ≠ (minEntry o os).2)), gs, cf)).1
        (relaxList g goal (minEntry o os).2 ((lookupA gs (minEntry o os).2).getD 0)
          (get_neighbors n g (minEntry o os).2)
          ((o :: os).filter (fun x => decide (x.2 ≠ (minEntry o os).2)), gs, cf)).2.1
        (relaxList g goal (minEntry o os).2 ((lookupA gs (minEntry o os).2).getD 0)
          (get_neighbors n g (minEntry o os).2)
          ((o :: os).filter (fun x => decide (x.2 ≠ (minEntry o os).2)), gs, cf)).2.2 := by
  rw [astarLoop]
  simp only [h, if_false]

theorem astar_pop_pres (n : Nat) (g : Grid) (s goal : Cell)
    (o : Nat × Cell) (os : List (Nat × Cell)) (gs : List (Cell × Nat))
    (cf : List (Cell × Cell)) (hgoal : (minEntry o os).2 ≠ goal)
    (hinv : AInv n g s goal (o :: os) gs cf) :
    AInv n g s goal
      (relaxList g goal (minEntry o os).2
        ((lookupA gs (minEntry o os).2).getD 0)
        (get_neighbors n g (minEntry o os).2)
        ((o :: os).filter (fun x => decide (x.2 ≠ (minEntry o os).2)),
          gs, cf)).1
      (relaxList g goal (minEntry o os).2
        ((lookupA gs (minEntry o os).2).getD 0)
        (get_neighbors n g (minEntry o os).2)
        ((o :: os).filter (fun x => decide (x.2 ≠ (minEntry o os).2)),
          gs, cf)).2.1
      (relaxList g goal (minEntry o os).2
        ((lookupA gs (minEntry o os).2).getD 0)
        (get_neighbors n g (minEntry o os).2)
        ((o :: os).filter (fun x => decide (x.2 ≠ (minEntry o os).2)),
          gs, cf)).2.2 := by
  obtain ⟨h1, h7, h2, h3, h4, h5, h6⟩ := hinv
  obtain ⟨v0, hv0⟩ := h4 (minEntry o os) (minEntry_mem o os)
  have hgc : (lookupA gs (minEntry o os).2).getD 0 = v0 := by rw [hv0]; rfl
  rw [hgc]
  have hA3 : A3P n g (fun c => c = (minEntry o os).2)
      ((o :: os).filter (fun x => decide (x.2 ≠ (minEntry o os).2))) gs := by
    intro x v hx
    rcases h3 x v hx with hex | ⟨f, hf⟩ | hrel
    · exact hex.elim
    · by_cases hxc : x = (minEntry o os).2
      · exact Or.inl hxc
      · refine Or.inr (Or.inl ⟨f, List.mem_filter.mpr ⟨hf, ?_⟩⟩)
        exact decide_eq_true hxc
    · exact Or.inr (Or.inr hrel)
  have hA4 : A4P ((o :: os).filter
      (fun x => decide (x.2 ≠ (minEntry o os).2))) gs :=
    fun e he => h4 e (List.mem_filter.mp he).1
  have hA5 : A5P goal ((o :: os).filter
      (fun x => decide (x.2 ≠ (minEntry o os).2))) gs := by
    intro v hv
    obtain ⟨f, hf⟩ := h5 v hv
    refine ⟨f, List.mem_filter.mpr ⟨hf, ?_⟩⟩
    exact decide_eq_true (fun h => hgoal h.symm)
  obtain ⟨d1, d2, d3, d4, d5, d6, d7, d8, d9, d10⟩ :=
    relaxList_pres n g s goal (minEntry o os).2 v0
      (get_neighbors n g (minEntry o os).2)
      ((o :: os).filter (fun x => decide (x.2 ≠ (minEntry o os).2)),
        gs, cf)
      (fun x hx => hx) hv0 h1 h7 h2 hA3 hA4 hA5 h6
  refine ⟨d2, d10, d3, ?_, d5, d6, d7⟩
  intro x v hx
  rcases d4 x v hx with hex | hopen | hrel
  · right; right
    subst hex
    rw [d1] at hx
    have hvv : v0 = v := Option.some.inj hx
    intro w hw
    obtain ⟨vw, hvw, hle⟩ := d9 w hw
    exact ⟨vw, hvw, by omega⟩
  · exact Or.inr (Or.inl hopen)
  · exact Or.inr (Or.inr hrel)

theorem astarLoop_spec (n : Nat) (g : Grid) (s goal : Cell)
    (opn : List (Nat × Cell)) (gs : List (Cell × Nat))
    (cf : List (Cell × Cell)) :
    AInv n g s goal opn gs cf →
    (astarLoop n g s goal opn gs cf = [] → ¬ AReach n g s goal) ∧
    (astarLoop n g s goal opn gs cf ≠ [] →
      AValidPath n g s goal (astarLoop n g s goal opn gs cf)) := by
  induction opn, gs, cf using astarLoop.induct n g s goal with
  | case1 gs cf =>
    intro hinv
    obtain ⟨h1, h7, h2, h3, h4, h5, h6⟩ := hinv
    rw [astarLoop_nil]
    constructor
    · rintro - ⟨p, hp⟩
      obtain ⟨v, hv⟩ := gs_closed n g s gs h1 h3 p goal hp
      obtain ⟨f, hf⟩ := h5 v hv
      exact List.not_mem_nil _ hf
    · intro h
      exact absurd rfl h
  | case2 gs cf o os cur hgoal =>
    intro hinv
    obtain ⟨h1, h7, h2, h3, h4, h5, h6⟩ := hinv
    have hg2 : (minEntry o os).2 = goal := hgoal
    rw [astarLoop_goal n g s goal o os gs cf hg2]
    constructor
    · intro hres
      exact absurd hres (reconstruct_ne_nil cf s _ _)
    · intro _
      obtain ⟨v0, hv0⟩ := h4 (minEntry o os) (minEntry_mem o os)
      have hcard : ((spaceA n s).filter
          (fun c => belowOpt (lookupA gs c) v0)).card < n * n + 2 := by
        have hle := Finset.card_filter_le (spaceA n s)
          (fun c => belowOpt (lookupA gs c) v0)
        have := card_spaceA n s
        omega
      have hvalid := reconstruct_sound n g s gs cf h7 h2 h6 (n * n + 2)
        (minEntry o os).2 v0 hv0 hcard
      rw [hg2] at hvalid ⊢
      exact hvalid
  | case3 gs cf o os cur rest hgoal st ih =>
    intro hinv
    have hg2 : (minEntry o os).2 ≠ goal := hgoal
    rw [astarLoop_step n g s goal o os gs cf hg2]
    exact ih (astar_pop_pres n g s goal o os gs cf hg2 hinv)

theorem lookupA_singleton (s x : Cell) (v : Nat) :
    lookupA [(s, v)] x = if s = x then some v else none := by
  simp only [lookupA]

theorem calc_init_inv (n : Nat) (g : Grid) (s goal : Cell) :
    AInv n g s goal [(0, s)] [(s, 0)] [] := by
  refine ⟨?_, rfl, ?_, ?_, ?_, ?_, ?_⟩
  · rw [lookupA_singleton, if_pos rfl]
  · intro x v hx
    rw [lookupA_singleton] at hx
    by_cases hsx : s = x
    · exact Or.inl hsx.symm
    · rw [if_neg hsx] at hx
      cases hx
  · intro x v hx
    rw [lookupA_singleton] at hx
    by_cases hsx : s = x
    · subst hsx
      exact Or.inr (Or.inl ⟨0, List.mem_singleton.mpr rfl⟩)
    · rw [if_neg hsx] at hx
      cases hx
  · intro e he
    have he2 : e = (0, s) := List.mem_singleton.mp he
    subst he2
    exact ⟨0, by rw [lookupA_singleton, if_pos rfl]⟩
  · intro v hv
    rw [lookupA_singleton] at hv
    by_cases hsg : s = goal
    · subst hsg
      exact ⟨0, List.mem_singleton.mpr rfl⟩
    · rw [if_neg hsg] at hv
      cases hv
  · intro x v hx
    rw [lookupA_singleton] at hx
    by_cases hsx : s = x
    · subst hsx
      exact Finset.mem_insert_self s (allCells n)
    · rw [if_neg hsx] at hx
      cases hx

theorem calculate_path_spec (n : Nat) (g : Grid) (s goal : Cell) :
    (calculate_path n g s goal = [] → ¬ AReach n g s goal) ∧
    (calculate_path n g s goal ≠ [] →
      AValidPath n g s goal (calculate_path n g s goal)) :=
  astarLoop_spec n g s goal [(0, s)] [(s, 0)] [] (calc_init_inv n g s goal)

theorem calculate_path_complete (n : Nat) (g : Grid) (s goal : Cell)
    (h : AReach n g s goal) : calculate_path n g s goal ≠ [] := by
  intro he
  exact (calculate_path_spec n g s goal).1 he h

theorem calculate_path_sound (n : Nat) (g : Grid) (s goal : Cell)
    (h : calculate_path n g s goal ≠ []) :
    AValidPath n g s goal (calculate_path n g s goal) :=
  (calculate_path_spec n g s goal).2 h

theorem astarLoopF_eq (n : Nat) (g : Grid) (s goal : Cell) :
    ∀ (fuel : Nat) (opn : List (Nat × Cell)) (gs : List (Cell × Nat))
      (cf : List (Cell × Cell)) (r : List Cell),
      astarLoopF n g s goal fuel (opn, gs, cf) = some r →
      astarLoop n g s goal opn gs cf = r
  | 0, opn, gs, cf, r => fun h => by simp [astarLoopF] at h
  | fuel + 1, [], gs, cf, r => fun h => by
    simp only [astarLoopF] at h
    rw [astarLoop_nil]
    exact Option.some.inj h
  | fuel + 1, o :: os, gs, cf, r => fun h => by
    simp only [astarLoopF] at h
    by_cases hg : (minEntry o os).2 = goal
    · rw [if_pos hg] at h
      rw [astarLoop_goal n g s goal o os gs cf hg]
      exact Option.some.inj h
    · rw [if_neg hg] at h
      rw [astarLoop_step n g s goal o os gs cf hg]
      exact astarLoopF_eq n g s goal fuel _ _ _ r h

theorem calculate_path_eval (n : Nat) (g : Grid) (s goal : Cell)
    (fuel : Nat) (r : List Cell)
    (h : astarLoopF n g s goal fuel ([(0, s)], [(s, 0)], []) = some r) :
    calculate_path n g s goal = r :=
  astarLoopF_eq n g s goal fuel [(0, s)] [(s, 0)] [] r h

/-! ## Snake BFS: minimality machinery -/

theorem snakeChainOk_append_inv (snake : List Cell) (dd : SnakeDir) :
    ∀ (p : List SnakeDir) (c : Cell), snakeChainOk snake c (p ++ [dd]) →
      snakeChainOk snake c p ∧ snakeOk snake (applyDir (followDirs c p) dd)
  | [], c => fun h => ⟨trivial, h.1⟩
  | e :: p, c => by
    intro h
    obtain ⟨h1, h2⟩ := h
    obtain ⟨h3, h4⟩ := snakeChainOk_append_inv snake dd p (applyDir c e) h2
    exact ⟨⟨h1, h3⟩, h4⟩

theorem snakeExpand_marks (snake : List Cell) (c : Cell) (p : List SnakeDir) :
    ∀ (ds : List (SnakeDir × (Int × Int))) (vis : Finset Cell)
      (dd : SnakeDir) (off : Int × Int), (dd, off) ∈ ds →
      (dd, off) ∈ snakeDirs → snakeOk snake (applyDir c dd) →
      applyDir c dd ∈ (snakeExpand snake c p ds vis).2
  | [], vis => by
    intro dd off h _ _
    simp at h
  | (d0, off0) :: ds, vis => by
    intro dd off hmem hdirs hok
    rw [snakeExpand]
    by_cases hcnd : ((c.1 + off0.1 * 20, c.2 + off0.2 * 20) : Cell) ∉ vis ∧
        0 ≤ c.1 + off0.1 * 20 ∧ c.1 + off0.1 * 20 < (SNAKE_WH : Int) ∧
        0 ≤ c.2 + off0.2 * 20 ∧ c.2 + off0.2 * 20 < (SNAKE_WH : Int) ∧
        ((c.1 + off0.1 * 20, c.2 + off0.2 * 20) : Cell) ∉ snake
    · rw [if_pos hcnd]
      rcases List.mem_cons.mp hmem with heq | htail
      · obtain ⟨hd, ho⟩ := Prod.mk.inj heq
        subst hd
        subst ho
        have hnc : ((c.1 + off.1 * 20, c.2 + off.2 * 20) : Cell) =
            applyDir c dd := applyDir_off c dd off hdirs
        rw [← hnc]
        exact (snakeExpand_vis snake c p ds _).1 (Finset.mem_insert_self _ _)
      · exact snakeExpand_marks snake c p ds _ dd off htail hdirs hok
    · rw [if_neg hcnd]
      rcases List.mem_cons.mp hmem with heq | htail
      · obtain ⟨hd, ho⟩ := Prod.mk.inj heq
        subst hd
        subst ho
        have hnc : ((c.1 + off.1 * 20, c.2 + off.2 * 20) : Cell) =
            applyDir c dd := applyDir_off c dd off hdirs
        have hok2 : snakeOk snake
            ((c.1 + off.1 * 20, c.2 + off.2 * 20) : Cell) := by
          rw [hnc]
          exact hok
        obtain ⟨b1, b2, b3, b4, b5⟩ := hok2
        have hin : ((c.1 + off.1 * 20, c.2 + off.2 * 20) : Cell) ∈ vis := by
          by_contra hnin
          exact hcnd ⟨hnin, b1, b2, b3, b4, b5⟩
        rw [← hnc]
        exact (snakeExpand_vis snake c p ds vis).1 hin
      · exact snakeExpand_marks snake c p ds vis dd off htail hdirs hok

theorem snakeExpand_entries (snake : List Cell) (c : Cell) (p : List SnakeDir) :
    ∀ (ds : List (SnakeDir × (Int × Int))), (∀ x ∈ ds, x ∈ snakeDirs) →
      ∀ (vis : Finset Cell) (e : Cell × List SnakeDir),
        e ∈ (snakeExpand snake c p ds vis).1 →
        ∃ dd : SnakeDir, e.1 = applyDir c dd ∧ e.2 = p ++ [dd] ∧
          snakeOk snake e.1 ∧ e.1 ∉ vis ∧
          e.1 ∈ (snakeExpand snake c p ds vis).2
  | [], _ => by
    intro vis e he
    simp [snakeExpand] at he
  | (d0, off0) :: ds, hds => by
    intro vis e he
    rw [snakeExpand] at he ⊢
    by_cases hcnd : ((c.1 + off0.1 * 20, c.2 + off0.2 * 20) : Cell) ∉ vis ∧
        0 ≤ c.1 + off0.1 * 20 ∧ c.1 + off0.1 * 20 < (SNAKE_WH : Int) ∧
        0 ≤ c.2 + off0.2 * 20 ∧ c.2 + off0.2 * 20 < (SNAKE_WH : Int) ∧
        ((c.1 + off0.1 * 20, c.2 + off0.2 * 20) : Cell) ∉ snake
    · rw [if_pos hcnd] at he ⊢
      have hnc : ((c.1 + off0.1 * 20, c.2 + off0.2 * 20) : Cell) =
          applyDir c d0 := applyDir_off c d0 off0 (hds (d0, off0) (by simp))
      rcases List.mem_cons.mp he with rfl | heR
      · refine ⟨d0, hnc, rfl, ?_, hcnd.1, ?_⟩
        · exact ⟨hcnd.2.1, hcnd.2.2.1, hcnd.2.2.2.1, hcnd.2.2.2.2.1,
            hcnd.2.2.2.2.2⟩
        · exact (snakeExpand_vis snake c p ds _).1 (Finset.mem_insert_self _ _)
      · obtain ⟨dd, he1, he2, he3, he4, he5⟩ := snakeExpand_entries snake c p ds
          (fun x hx => hds x (List.mem_cons_of_mem _ hx)) _ e heR
        refine ⟨dd, he1, he2, he3, ?_, he5⟩
        intro hv
        exact he4 (Finset.mem_insert_of_mem hv)
    · rw [if_neg hcnd] at he ⊢
      exact snakeExpand_entries snake c p ds
        (fun x hx => hds x (List.mem_cons_of_mem _ hx)) vis e he

theorem snakeExpand_vis_inv (snake : List Cell) (c : Cell) (p : List SnakeDir) :
    ∀ (ds : List (SnakeDir × (Int × Int))) (vis : Finset Cell) (x : Cell),
      x ∈ (snakeExpand snake c p ds vis).2 →
      x ∈ vis ∨ ∃ e ∈ (snakeExpand snake c p ds vis).1, e.1 = x
  | [], vis => by
    intro x hx
    rw [snakeExpand] at hx
    exact Or.inl hx
  | (d0, off0) :: ds, vis => by
    intro x hx
    rw [snakeExpand] at hx ⊢
    by_cases hcnd : ((c.1 + off0.1 * 20, c.2 + off0.2 * 20) : Cell) ∉ vis ∧
        0 ≤ c.1 + off0.1 * 20 ∧ c.1 + off0.1 * 20 < (SNAKE_WH : Int) ∧
        0 ≤ c.2 + off0.2 * 20 ∧ c.2 + off0.2 * 20 < (SNAKE_WH : Int) ∧
        ((c.1 + off0.1 * 20, c.2 + off0.2 * 20) : Cell) ∉ snake
    · rw [if_pos hcnd] at hx ⊢
      rcases snakeExpand_vis_inv snake c p ds _ x hx with hxv | ⟨e, he, he1⟩
      · rcases Finset.mem_insert.mp hxv with rfl | hxv2
        · exact Or.inr ⟨((c.1 + off0.1 * 20, c.2 + off0.2 * 20), p ++ [d0]),
            List.mem_cons_self _ _, rfl⟩
        · exact Or.inl hxv2
      · exact Or.inr ⟨e, List.mem_cons_of_mem _ he, he1⟩
    · rw [if_neg hcnd] at hx ⊢
      exact snakeExpand_vis_inv snake c p ds vis x hx

/-- `dv` is the exact shortest move count from the head to `d` through
cells off the snake body. -/
def IsDistS (snake : List Cell) (start d : Cell) (dv : Nat) : Prop :=
  (∃ ds, snakeChainOk snake start ds ∧ followDirs start ds = d ∧
    ds.length = dv) ∧
  ∀ ds, snakeChainOk snake start ds → followDirs start ds = d →
    dv ≤ ds.length

/-- Every snake queue entry is sound and carries its cell's exact
distance as its direction-list length. -/
def SQSound (snake : List Cell) (start : Cell)
    (q : List (Cell × List SnakeDir)) : Prop :=
  ∀ e ∈ q, followDirs start e.2 = e.1 ∧ snakeChainOk snake start e.2 ∧
    IsDistS snake start e.1 e.2.length

/-- The snake queue is two consecutive levels, and every cell within the
first level's distance is visited (or is the start, which is never
marked). -/
def SBlocks (snake : List Cell) (start : Cell)
    (q : List (Cell × List SnakeDir)) (vis : Finset Cell) : Prop :=
  ∃ k A B, q = A ++ B ∧ (∀ e ∈ A, e.2.length = k) ∧
    (∀ e ∈ B, e.2.length = k + 1) ∧ (A = [] → B = []) ∧
    (∀ d ds, snakeChainOk snake start ds → followDirs start ds = d →
      ds.length ≤ k → d ∈ vis ∨ d = start)

/-- Every visited cell still has its queue entry, or has been fully
expanded (each legal move from it lands on a visited cell). -/
def SVisNbr (snake : List Cell) (q : List (Cell × List SnakeDir))
    (vis : Finset Cell) : Prop :=
  ∀ v ∈ vis, (∃ e ∈ q, e.1 = v) ∨
    ∀ dd : SnakeDir, snakeOk snake (applyDir v dd) → applyDir v dd ∈ vis

/-- The full snake BFS loop invariant. -/
def SInv (snake : List Cell) (start food : Cell)
    (q : List (Cell × List SnakeDir)) (vis : Finset Cell) : Prop :=
  SQSound snake start q ∧ SBlocks snake start q vis ∧
    SVisNbr snake q vis ∧
    ((∃ e ∈ q, e.1 = start) ∨
      ∀ dd : SnakeDir, snakeOk snake (applyDir start dd) →
        applyDir start dd ∈ vis) ∧
    (food ∈ vis → ∃ e ∈ q, e.1 = food)

theorem svis_closed (snake : List Cell) (start : Cell) (vis : Finset Cell)
    (hN : ∀ v ∈ vis, ∀ dd : SnakeDir, snakeOk snake (applyDir v dd) →
      applyDir v dd ∈ vis)
    (hS : ∀ dd : SnakeDir, snakeOk snake (applyDir start dd) →
      applyDir start dd ∈ vis) :
    ∀ (ds : List SnakeDir) (d : Cell), snakeChainOk snake start ds →
      followDirs start ds = d → d ∈ vis ∨ d = start := by
  intro ds
  induction ds using List.reverseRecOn with
  | nil =>
    intro d _ hf
    exact Or.inr hf.symm
  | append_singleton q dd ih =>
    intro d hch hf
    obtain ⟨hch1, hok⟩ := snakeChainOk_append_inv snake dd q start hch
    rw [followDirs_append] at hf
    rcases ih (followDirs start q) hch1 rfl with hu | hu
    · left
      rw [← hf]
      exact hN (followDirs start q) hu dd hok
    · left
      rw [← hf, hu]
      exact hS dd (by rw [← hu]; exact hok)

theorem slevel_up (snake : List Cell) (start : Cell) (k : Nat) (c : Cell)
    (p : List SnakeDir) (B : List (Cell × List SnakeDir))
    (vis vis' : Finset Cell)
    (hvlow : ∀ d ds, snakeChainOk snake start ds → followDirs start ds = d →
      ds.length ≤ k → d ∈ vis ∨ d = start)
    (hSN : SVisNbr snake ((c, p) :: B) vis)
    (hSS : (∃ e ∈ (c, p) :: B, e.1 = start) ∨
      ∀ dd : SnakeDir, snakeOk snake (applyDir start dd) →
        applyDir start dd ∈ vis)
    (hB : ∀ e ∈ B, e.2.length = k + 1)
    (hBdist : ∀ e ∈ B, IsDistS snake start e.1 e.2.length)
    (hcexp : ∀ dd : SnakeDir, snakeOk snake (applyDir c dd) →
      applyDir c dd ∈ vis')
    (hsub : vis ⊆ vis') :
    ∀ d ds, snakeChainOk snake start ds → followDirs start ds = d →
      ds.length ≤ k + 1 → d ∈ vis' ∨ d = start := by
  intro d ds hch hf hlen
  by_cases hk : ds.length ≤ k
  · rcases hvlow d ds hch hf hk with h | h
    · exact Or.inl (hsub h)
    · exact Or.inr h
  · have hlen1 : ds.length = k + 1 := by omega
    have hne : ds ≠ [] := by
      intro h
      rw [h] at hlen1
      simp at hlen1
    have hds : ds.dropLast ++ [ds.getLast hne] = ds :=
      List.dropLast_append_getLast hne
    obtain ⟨hch1, hok⟩ := snakeChainOk_append_inv snake (ds.getLast hne)
      ds.dropLast start (by rw [hds]; exact hch)
    have hdl : ds.dropLast.length = k := by
      rw [List.length_dropLast]
      omega
    have hfu : followDirs start (ds.dropLast ++ [ds.getLast hne]) = d := by
      rw [hds]
      exact hf
    rw [followDirs_append] at hfu
    rcases hvlow (followDirs start ds.dropLast) ds.dropLast hch1 rfl
        (le_of_eq hdl) with hu | hu
    · rcases hSN (followDirs start ds.dropLast) hu with ⟨e, he, he1⟩ | hexp
      · rcases List.mem_cons.mp he with rfl | heB
        · have hce : c = followDirs start ds.dropLast := he1
          left
          rw [← hfu, ← hce]
          exact hcexp (ds.getLast hne) (by rw [hce]; exact hok)
        · exfalso
          have hd1 := hBdist e heB
          have hd2 := hB e heB
          have := hd1.2 ds.dropLast hch1 (by rw [he1])
          omega
      · left
        rw [← hfu]
        exact hsub (hexp (ds.getLast hne) hok)
    · rcases hSS with ⟨e, he, he1⟩ | hexp
      · rcases List.mem_cons.mp he with rfl | heB
        · have hce : c = start := he1
          left
          rw [← hfu, hu, ← hce]
          exact hcexp (ds.getLast hne) (by rw [hce, ← hu]; exact hok)
        · exfalso
          have hd1 := hBdist e heB
          have hd2 := hB e heB
          have := hd1.2 [] trivial he1.symm
          simp only [List.length_nil] at this
          omega
      · left
        rw [← hfu, hu]
        exact hsub (hexp (ds.getLast hne) (by rw [← hu]; exact hok))

theorem snakeDir_has_off (dd : SnakeDir) : ∃ off, (dd, off) ∈ snakeDirs := by
  cases dd
  · exact ⟨(0, -1), by simp [snakeDirs]⟩
  · exact ⟨(0, 1), by simp [snakeDirs]⟩
  · exact ⟨(-1, 0), by simp [snakeDirs]⟩
  · exact ⟨(1, 0), by simp [snakeDirs]⟩

theorem snakeAux_min (snake : List Cell) (start food : Cell)
    (hstart : start ∈ snake) :
    ∀ (fuel : Nat) (q : List (Cell × List SnakeDir)) (vis : Finset Cell),
      SInv snake start food q vis →
      ∀ r, snakeAux snake food fuel q vis = some r →
        (r = [] ∧ ¬ SnakeReach snake start food) ∨
        (snakeChainOk snake start r ∧ followDirs start r = food ∧
          ∀ ds, snakeChainOk snake start ds → followDirs start ds = food →
            r.length ≤ ds.length) := by
  intro fuel
  induction fuel with
  | zero =>
    intro q vis _ r hr
    simp [snakeAux] at hr
  | succ fuel ih =>
    intro q vis hinv r hr
    obtain ⟨hsound, ⟨k, A, B, hq, hA, hB, hcanon, hvlow⟩, hnbr, hss, hsg⟩ :=
      hinv
    cases q with
    | nil =>
      rw [snakeAux] at hr
      have hr0 : r = [] := by
        injection hr with h
        exact h.symm
      by_cases hfs : food = start
      · right
        subst hr0
        exact ⟨trivial, hfs.symm, fun ds _ _ => Nat.zero_le _⟩
      · left
        refine ⟨hr0, ?_⟩
        rintro ⟨ds, hds1, hds2⟩
        have hN : ∀ v ∈ vis, ∀ dd : SnakeDir,
            snakeOk snake (applyDir v dd) → applyDir v dd ∈ vis := by
          intro v hv dd hok
          rcases hnbr v hv with ⟨e, he, _⟩ | hexp
          · simp at he
          · exact hexp dd hok
        have hS : ∀ dd : SnakeDir, snakeOk snake (applyDir start dd) →
            applyDir start dd ∈ vis := by
          rcases hss with ⟨e, he, _⟩ | hexp
          · simp at he
          · exact hexp
        rcases svis_closed snake start vis hN hS ds food hds1 hds2 with
          hin | heq
        · obtain ⟨e, he, _⟩ := hsg hin
          simp at he
        · exact hfs heq
    | cons a rest =>
      obtain ⟨c, p⟩ := a
      have hAB : A ≠ [] := by
        intro h
        rw [h, hcanon h] at hq
        simp at hq
      obtain ⟨a0, A', rfl⟩ : ∃ a0 A', A = a0 :: A' := by
        cases A with
        | nil => exact absurd rfl hAB
        | cons a0 A' => exact ⟨a0, A', rfl⟩
      rw [List.cons_append] at hq
      have ha0 : a0 = (c, p) ∧ rest = A' ++ B := by
        have h1 := List.cons.injEq (c, p) rest a0 (A' ++ B) ▸ hq
        exact ⟨h1.1.symm, h1.2⟩
      obtain ⟨rfl, hrest⟩ := ha0
      have hplen : p.length = k := hA (c, p) (by simp)
      obtain ⟨hcf, hcch, hcdist⟩ := hsound (c, p) (by simp)
      rw [snakeAux] at hr
      by_cases hcfood : c = food
      · rw [if_pos hcfood] at hr
        have hrr : r = p := by
          injection hr with h
          exact h.symm
        subst hcfood
        right
        refine ⟨?_, ?_, ?_⟩
        · rw [hrr]
          exact hcch
        · rw [hrr]
          exact hcf
        · intro ds h1 h2
          rw [hrr]
          exact hcdist.2 ds h1 h2
      · rw [if_neg hcfood] at hr
        apply ih (rest ++ (snakeExpand snake c p snakeDirs vis).1)
          (snakeExpand snake c p snakeDirs vis).2 ?_ r hr
        have hmono : vis ⊆ (snakeExpand snake c p snakeDirs vis).2 :=
          (snakeExpand_vis snake c p snakeDirs vis).1
        have hmarks : ∀ dd : SnakeDir, snakeOk snake (applyDir c dd) →
            applyDir c dd ∈ (snakeExpand snake c p snakeDirs vis).2 := by
          intro dd hok
          obtain ⟨off, hoff⟩ := snakeDir_has_off dd
          exact snakeExpand_marks snake c p snakeDirs vis dd off hoff hoff hok
        have hnewQ : ∀ e ∈ (snakeExpand snake c p snakeDirs vis).1,
            followDirs start e.2 = e.1 ∧ snakeChainOk snake start e.2 ∧
              IsDistS snake start e.1 e.2.length := by
          intro e he
          obtain ⟨dd, h1, h2, hok, hnvis, hinE⟩ :=
            snakeExpand_entries snake c p snakeDirs (fun x hx => hx) vis e he
          have hfol : followDirs start e.2 = e.1 := by
            rw [h2, followDirs_append, hcf, ← h1]
          have hchn : snakeChainOk snake start e.2 := by
            rw [h2]
            apply snakeChainOk_append snake start p dd hcch
            rw [hcf, ← h1]
            exact hok
          have hlen : e.2.length = k + 1 := by
            rw [h2, List.length_append, List.length_singleton, hplen]
          refine ⟨hfol, hchn, ?_⟩
          rw [hlen]
          constructor
          · exact ⟨e.2, hchn, hfol, hlen⟩
          · intro ds hds1 hds2
            by_contra hlt
            have hdsk : ds.length ≤ k := by omega
            rcases hvlow e.1 ds hds1 hds2 hdsk with hv | hv
            · exact hnvis hv
            · rw [hv] at hok
              exact hok.2.2.2.2 hstart
        refine ⟨?_, ?_, ?_, ?_, ?_⟩
        · intro e he
          rcases List.mem_append.mp he with heR | heN
          · exact hsound e (List.mem_cons_of_mem _ heR)
          · exact hnewQ e heN
        · by_cases hA' : A' = []
          · subst hA'
            simp only [List.nil_append] at hrest
            refine ⟨k + 1, B ++ (snakeExpand snake c p snakeDirs vis).1, [],
              by rw [hrest, List.append_nil], ?_, by simp, fun _ => rfl, ?_⟩
            · intro e he
              rcases List.mem_append.mp he with heB | heN
              · exact hB e heB
              · obtain ⟨dd, _, h2, _, _, _⟩ := snakeExpand_entries snake c p
                  snakeDirs (fun x hx => hx) vis e heN
                rw [h2, List.length_append, List.length_singleton, hplen]
            · apply slevel_up snake start k c p B vis
                (snakeExpand snake c p snakeDirs vis).2 hvlow
                (by rw [hrest] at hnbr; exact hnbr)
                (by rw [hrest] at hss; exact hss) hB ?_ hmarks hmono
              intro e heB
              exact (hsound e (List.mem_cons_of_mem _ (hrest ▸ heB))).2.2
          · refine ⟨k, A', B ++ (snakeExpand snake c p snakeDirs vis).1,
              by rw [hrest, List.append_assoc],
              fun e he => hA e (by simp [he]), ?_,
              fun h => absurd h hA', ?_⟩
            · intro e he
              rcases List.mem_append.mp he with heB | heN
              · exact hB e heB
              · obtain ⟨dd, _, h2, _, _, _⟩ := snakeExpand_entries snake c p
                  snakeDirs (fun x hx => hx) vis e heN
                rw [h2, List.length_append, List.length_singleton, hplen]
            · intro d ds h1 h2 h3
              rcases hvlow d ds h1 h2 h3 with hv | hv
              · exact Or.inl (hmono hv)
              · exact Or.inr hv
        · intro v hv
          rcases snakeExpand_vis_inv snake c p snakeDirs vis v hv with
            hvv | ⟨e, heE, he1⟩
          · rcases hnbr v hvv with ⟨e, he, he1⟩ | hexp
            · rcases List.mem_cons.mp he with rfl | heR
              · have hce : c = v := he1
                right
                intro dd hok
                rw [← hce]
                exact hmarks dd (by rw [hce]; exact hok)
              · exact Or.inl ⟨e, List.mem_append_left _ heR, he1⟩
            · right
              intro dd hok
              exact hmono (hexp dd hok)
          · exact Or.inl ⟨e, List.mem_append_right _ heE, he1⟩
        · rcases hss with ⟨e, he, he1⟩ | hexp
          · rcases List.mem_cons.mp he with rfl | heR
            · have hce : c = start := he1
              right
              intro dd hok
              rw [← hce]
              exact hmarks dd (by rw [hce]; exact hok)
            · exact Or.inl ⟨e, List.mem_append_left _ heR, he1⟩
          · right
            intro dd hok
            exact hmono (hexp dd hok)
        · intro hfood
          rcases snakeExpand_vis_inv snake c p snakeDirs vis food hfood with
            hvv | ⟨e, heE, he1⟩
          · obtain ⟨e, he, he1⟩ := hsg hvv
            rcases List.mem_cons.mp he with rfl | heR
            · exact absurd he1 hcfood
            · exact ⟨e, List.mem_append_left _ heR, he1⟩
          · exact ⟨e, List.mem_append_right _ heE, he1⟩

theorem snakeInv_init (snake : List Cell) (start food : Cell) :
    SInv snake start food [(start, [])] ∅ := by
  refine ⟨?_, ?_, ?_, ?_, ?_⟩
  · intro e he
    have he2 : e = (start, []) := List.mem_singleton.mp he
    subst he2
    exact ⟨rfl, trivial,
      ⟨⟨[], trivial, rfl, rfl⟩, fun ds _ _ => Nat.zero_le _⟩⟩
  · refine ⟨0, [(start, [])], [], rfl, ?_, by simp, ?_, ?_⟩
    · intro e he
      have he2 : e = (start, []) := List.mem_singleton.mp he
      subst he2
      rfl
    · intro h
      simp at h
    · intro d ds _ hf hlen
      have hds : ds = [] := List.length_eq_zero.mp (Nat.le_zero.mp hlen)
      subst hds
      exact Or.inr hf.symm
  · intro v hv
    exact absurd hv (Finset.not_mem_empty v)
  · exact Or.inl ⟨(start, []), List.mem_singleton.mpr rfl, rfl⟩
  · intro h
    exact absurd h (Finset.not_mem_empty food)

theorem snake_bfs_shortest (snake : List Cell) (food : Cell)
    (hstart : snake.headI ∈ snake)
    (hreach : SnakeReach snake snake.headI food) :
    snakeChainOk snake snake.headI (snake_bfs snake food) ∧
    followDirs snake.headI (snake_bfs snake food) = food ∧
    ∀ ds, snakeChainOk snake snake.headI ds →
      followDirs snake.headI ds = food →
      (snake_bfs snake food).length ≤ ds.length := by
  obtain ⟨r, hr⟩ := snake_bfs_total snake food
  have hres : snake_bfs snake food = r := by
    unfold snake_bfs
    rw [hr]
    rfl
  rcases snakeAux_min snake snake.headI food hstart snake_fuel
      [(snake.headI, [])] ∅ (snakeInv_init snake snake.headI food) r hr with
    ⟨_, hnr⟩ | ⟨h1, h2, h3⟩
  · exact absurd hreach hnr
  · rw [hres]
    exact ⟨h1, h2, h3⟩

/-! ## Teleport pairing lemmas -/

theorem teleportPositions_mem (n : Nat) (g : Grid) (x : Cell)
    (hx : x ∈ teleportPositions n g) : gget g x = TELEPORT := by
  unfold teleportPositions at hx
  rw [List.mem_flatMap] at hx
  obtain ⟨r, _, hr⟩ := hx
  rw [List.mem_filterMap] at hr
  obtain ⟨c, _, hc⟩ := hr
  by_cases h : gget g ((r : Int), (c : Int)) = TELEPORT
  · rw [if_pos h] at hc
    rw [← Option.some.inj hc]
    exact h
  · rw [if_neg h] at hc
    cases hc

theorem teleportPositions_row (n : Nat) (g : Grid) (r : Nat) (x : Cell)
    (hx : x ∈ (List.range n).filterMap
      (fun (c : Nat) => if gget g ((r : Int), (c : Int)) = TELEPORT
        then some ((r : Int), (c : Int)) else none)) : x.1 = (r : Int) := by
  rw [List.mem_filterMap] at hx
  obtain ⟨c, _, hc⟩ := hx
  by_cases h : gget g ((r : Int), (c : Int)) = TELEPORT
  · rw [if_pos h] at hc
    rw [← Option.some.inj hc]
  · rw [if_neg h] at hc
    cases hc

theorem teleportPositions_nodup (n : Nat) (g : Grid) :
    (teleportPositions n g).Nodup := by
  unfold teleportPositions
  rw [List.nodup_flatMap]
  constructor
  · intro r _
    apply List.Nodup.filterMap ?_ (List.nodup_range n)
    intro a a' b hb hb'
    by_cases h : gget g ((r : Int), (a : Int)) = TELEPORT
    · rw [if_pos h] at hb
      by_cases h' : gget g ((r : Int), (a' : Int)) = TELEPORT
      · rw [if_pos h'] at hb'
        rw [Option.mem_def] at hb hb'
        have h1 := Option.some.inj hb.symm
        have h2 := Option.some.inj hb'.symm
        have h3 : ((a : Int), (a' : Int)).1 = ((a : Int), (a' : Int)).2 := by
          have := h1.symm.trans h2
          rw [Prod.mk.injEq] at this
          exact this.2
        exact Int.natCast_inj.mp h3
      · rw [if_neg h'] at hb'
        cases hb'
    · rw [if_neg h] at hb
      cases hb
  · apply List.Pairwise.imp ?_ (List.nodup_range n)
    intro r r' hne x hx hx'
    have h1 := teleportPositions_row n g r x hx
    have h2 := teleportPositions_row n g r' x hx'
    exact hne (Int.natCast_inj.mp (h1.symm.trans h2))

theorem lookupA_pairUp_cons (a b : Cell) (rest : List Cell) (x : Cell) :
    lookupA (pairUp (a :: b :: rest)) x =
      if a = x then some b
      else if b = x then some a
      else lookupA (pairUp rest) x := rfl

theorem pairUp_mem : ∀ (ts : List Cell) (x y : Cell),
    lookupA (pairUp ts) x = some y → x ∈ ts ∧ y ∈ ts
  | [], x, y => by
    intro h
    simp [pairUp, lookupA] at h
  | [a], x, y => by
    intro h
    simp [pairUp, lookupA] at h
  | a :: b :: rest, x, y => by
    intro h
    rw [lookupA_pairUp_cons] at h
    by_cases hax : a = x
    · rw [if_pos hax] at h
      have hy := Option.some.inj h
      subst hax
      exact ⟨by simp, by rw [← hy]; simp⟩
    · rw [if_neg hax] at h
      by_cases hbx : b = x
      · rw [if_pos hbx] at h
        have hy := Option.some.inj h
        subst hbx
        exact ⟨by simp, by rw [← hy]; simp⟩
      · rw [if_neg hbx] at h
        obtain ⟨h1, h2⟩ := pairUp_mem rest x y h
        exact ⟨by simp [h1], by simp [h2]⟩

theorem pairUp_sym : ∀ (ts : List Cell), ts.Nodup → ∀ (x y : Cell),
    lookupA (pairUp ts) x = some y → lookupA (pairUp ts) y = some x
  | [], _, x, y => by
    intro h
    simp [pairUp, lookupA] at h
  | [a], _, x, y => by
    intro h
    simp [pairUp, lookupA] at h
  | a :: b :: rest, hnd, x, y => by
    intro h
    obtain ⟨hna, hnd2⟩ := List.nodup_cons.mp hnd
    obtain ⟨hnb, hnd3⟩ := List.nodup_cons.mp hnd2
    have hab : a ≠ b := fun he => hna (he ▸ List.mem_cons_self b rest)
    rw [lookupA_pairUp_cons] at h ⊢
    by_cases hax : a = x
    · rw [if_pos hax] at h
      have hy : y = b := (Option.some.inj h).symm
      subst hy
      rw [if_neg hab, if_pos rfl, hax]
    · rw [if_neg hax] at h
      by_cases hbx : b = x
      · rw [if_pos hbx] at h
        have hy : y = a := (Option.some.inj h).symm
        subst hy
        rw [if_pos rfl, hbx]
      · rw [if_neg hbx] at h
        obtain ⟨hxm, hym⟩ := pairUp_mem rest x y h
        have hay : a ≠ y := fun he => hna (he ▸ List.mem_cons_of_mem b hym)
        have hby : b ≠ y := fun he => hnb (he ▸ hym)
        rw [if_neg hay, if_neg hby]
        exact pairUp_sym rest hnd3 x y h

theorem pairUp_ne : ∀ (ts : List Cell), ts.Nodup → ∀ (x y : Cell),
    lookupA (pairUp ts) x = some y → x ≠ y
  | [], _, x, y => by
    intro h
    simp [pairUp, lookupA] at h
  | [a], _, x, y => by
    intro h
    simp [pairUp, lookupA] at h
  | a :: b :: rest, hnd, x, y => by
    intro h
    obtain ⟨hna, hnd2⟩ := List.nodup_cons.mp hnd
    obtain ⟨hnb, hnd3⟩ := List.nodup_cons.mp hnd2
    have hab : a ≠ b := fun he => hna (he ▸ List.mem_cons_self b rest)
    rw [lookupA_pairUp_cons] at h
    by_cases hax : a = x
    · rw [if_pos hax] at h
      have hy : b = y := Option.some.inj h
      intro hxy
      exact hab (hax.trans (hxy.trans hy.symm))
    · rw [if_neg hax] at h
      by_cases hbx : b = x
      · rw [if_pos hbx] at h
        have hy : a = y := Option.some.inj h
        intro hxy
        exact hab (hy.trans (hxy.symm.trans hbx.symm))
      · rw [if_neg hbx] at h
        exact pairUp_ne rest hnd3 x y h

theorem pairUp_odd : ∀ (ts : List Cell), ts.Nodup → ts.length % 2 = 1 →
    ∃ c, c ∈ ts ∧ lookupA (pairUp ts) c = none ∧
      ∀ d ∈ ts, lookupA (pairUp ts) d = none → d = c
  | [], _, hlen => by simp at hlen
  | [a], _, _ => by
    refine ⟨a, by simp, rfl, ?_⟩
    intro d hd _
    simpa using hd
  | a :: b :: rest, hnd, hlen => by
    obtain ⟨hna, hnd2⟩ := List.nodup_cons.mp hnd
    obtain ⟨hnb, hnd3⟩ := List.nodup_cons.mp hnd2
    have hlen2 : rest.length % 2 = 1 := by
      simp only [List.length_cons] at hlen
      omega
    obtain ⟨c, hc1, hc2, hc3⟩ := pairUp_odd rest hnd3 hlen2
    have hac : a ≠ c := fun he => hna (he ▸ List.mem_cons_of_mem b hc1)
    have hbc : b ≠ c := fun he => hnb (he ▸ hc1)
    refine ⟨c, by simp [hc1], ?_, ?_⟩
    · rw [lookupA_pairUp_cons, if_neg hac, if_neg hbc]
      exact hc2
    · intro d hd hnone
      rw [lookupA_pairUp_cons] at hnone
      by_cases had : a = d
      · rw [if_pos had] at hnone
        cases hnone
      · rw [if_neg had] at hnone
        by_cases hbd : b = d
        · rw [if_pos hbd] at hnone
          cases hnone
        · rw [if_neg hbd] at hnone
          rcases List.mem_cons.mp hd with rfl | hd2
          · exact absurd rfl had
          · rcases List.mem_cons.mp hd2 with rfl | hd3
            · exact absurd rfl hbd
            · exact hc3 d hd3 hnone

/-! ## Grid generation invariants (wumpus4) -/

theorem attemptFind_spec (agent : Cell) (g : Grid) (excl : List Cell)
    (draws : Nat → Cell) :
    ∀ (fuel k : Nat) (c : Cell),
      attemptFind agent g excl draws fuel k = some c →
      gget g c = EMPTY ∧ c ∉ excl
  | 0, k, c => by
    intro h
    simp [attemptFind] at h
  | fuel + 1, k, c => by
    intro h
    rw [attemptFind] at h
    by_cases hc : fep_cond agent g excl (draws k)
    · rw [if_pos hc] at h
      have hdc := Option.some.inj h
      rw [← hdc]
      exact ⟨hc.1, hc.2.1⟩
    · rw [if_neg hc] at h
      exact attemptFind_spec agent g excl draws fuel (k + 1) c h

theorem find_empty_position_spec (size : Nat) (agent : Cell) (g : Grid)
    (excl : List Cell) (draws : Nat → Cell) (c : Cell)
    (h : find_empty_position size agent g excl draws = some c) :
    gget g c = EMPTY ∧ c ∉ excl := by
  unfold find_empty_position at h
  cases ha : attemptFind agent g excl draws 100 0 with
  | some c' =>
    rw [ha] at h
    have hcc := Option.some.inj h
    obtain ⟨h1, h2⟩ := attemptFind_spec agent g excl draws 100 0 c' ha
    rw [← hcc]
    exact ⟨h1, h2⟩
  | none =>
    rw [ha] at h
    have hp := List.find?_some h
    exact of_decide_eq_true hp

theorem placeLoop_inv (size : Nat) (agent : Cell) (kind : Entity)
    (rng : Nat → Nat → Cell) :
    ∀ (cnt k : Nat) (g : Grid) (excl acc : List Cell),
      (excl ++ acc).Nodup →
      (excl ++ (placeLoop size agent kind rng cnt k g excl acc).2.1).Nodup ∧
      (placeLoop size agent kind rng cnt k g excl acc).2.1.length ≤
        acc.length + cnt
  | 0, k, g, excl, acc => fun h => ⟨h, Nat.le_add_right acc.length 0⟩
  | cnt + 1, k, g, excl, acc => by
    intro hnd
    cases hf : find_empty_position size agent g (excl ++ acc) (rng k) with
    | some pos =>
      have heq : placeLoop size agent kind rng (cnt + 1) k g excl acc =
          placeLoop size agent kind rng cnt (k + 1) (gset g pos kind) excl
            (acc ++ [pos]) := by
        rw [placeLoop, hf]
      obtain ⟨_, hpos⟩ :=
        find_empty_position_spec size agent g (excl ++ acc) (rng k) pos hf
      have hnd2 : (excl ++ (acc ++ [pos])).Nodup := by
        rw [← List.append_assoc]
        have hcc := List.Nodup.concat hpos hnd
        rw [List.concat_eq_append] at hcc
        exact hcc
      obtain ⟨i1, i2⟩ := placeLoop_inv size agent kind rng cnt (k + 1)
        (gset g pos kind) excl (acc ++ [pos]) hnd2
      rw [heq]
      refine ⟨i1, ?_⟩
      rw [List.length_append, List.length_singleton] at i2
      omega
    | none =>
      have heq : placeLoop size agent kind rng (cnt + 1) k g excl acc =
          placeLoop size agent kind rng cnt (k + 1) g excl acc := by
        rw [placeLoop, hf]
      obtain ⟨i1, i2⟩ := placeLoop_inv size agent kind rng cnt (k + 1) g excl
        acc hnd
      rw [heq]
      exact ⟨i1, by omega⟩


theorem generate_grid_inv (size : Nat) (prof : Profile)
    (rng : Nat → Nat → Cell) (hsize : 2 ≤ size) :
    ([(generate_grid size prof rng).agent, (generate_grid size prof rng).gold]
      ++ (generate_grid size prof rng).wumpuses
      ++ (generate_grid size prof rng).pitsPlaced
      ++ (generate_grid size prof rng).obstaclesPlaced
      ++ (generate_grid size prof rng).trapsPlaced
      ++ (generate_grid size prof rng).teleportsPlaced).Nodup ∧
    (generate_grid size prof rng).wumpuses.length ≤ prof.wumpus ∧
    (generate_grid size prof rng).pitsPlaced.length ≤ prof.pits ∧
    (generate_grid size prof rng).obstaclesPlaced.length ≤ prof.obstacles ∧
    (generate_grid size prof rng).trapsPlaced.length ≤ prof.traps ∧
    (generate_grid size prof rng).teleportsPlaced.length ≤ prof.teleports := by
  unfold generate_grid
  dsimp only
  set r1 := placeLoop size (0, 0) WUMPUS rng prof.wumpus 0
    (gset (gset (fun _ _ => EMPTY) (0, 0) AGENT)
      ((size : Int) - 1, (size : Int) - 1) GOLD)
    [(0, 0), ((size : Int) - 1, (size : Int) - 1)] [] with hr1
  set r2 := placeLoop size (0, 0) PIT rng prof.pits r1.2.2 r1.1
    ([(0, 0), ((size : Int) - 1, (size : Int) - 1)] ++ r1.2.1) [] with hr2
  set r3 := placeLoop size (0, 0) OBSTACLE rng prof.obstacles r2.2.2 r2.1
    ([(0, 0), ((size : Int) - 1, (size : Int) - 1)] ++ r1.2.1 ++ r2.2.1) []
    with hr3
  set r4 := placeLoop size (0, 0) TRAP rng prof.traps r3.2.2 r3.1
    ([(0, 0), ((size : Int) - 1, (size : Int) - 1)] ++ r1.2.1 ++ r2.2.1
      ++ r3.2.1) [] with hr4
  set r5 := placeLoop size (0, 0) TELEPORT rng prof.teleports r4.2.2 r4.1
    ([(0, 0), ((size : Int) - 1, (size : Int) - 1)] ++ r1.2.1 ++ r2.2.1
      ++ r3.2.1 ++ r4.2.1) [] with hr5
  have hbase : (([(0, 0), (((size : Int) - 1), ((size : Int) - 1))] :
      List Cell) ++ ([] : List Cell)).Nodup := by
    rw [List.append_nil]
    refine List.nodup_cons.mpr ⟨?_, List.nodup_singleton _⟩
    rw [List.mem_singleton]
    intro h
    rw [Prod.mk.injEq] at h
    obtain ⟨h1, _⟩ := h
    omega
  have h1 := placeLoop_inv size (0, 0) WUMPUS rng prof.wumpus 0
    (gset (gset (fun _ _ => EMPTY) (0, 0) AGENT)
      ((size : Int) - 1, (size : Int) - 1) GOLD)
    [(0, 0), ((size : Int) - 1, (size : Int) - 1)] [] hbase
  rw [← hr1] at h1
  have h2 := placeLoop_inv size (0, 0) PIT rng prof.pits r1.2.2 r1.1
    ([(0, 0), ((size : Int) - 1, (size : Int) - 1)] ++ r1.2.1) []
    (by rw [List.append_nil]; exact h1.1)
  rw [← hr2] at h2
  have h3 := placeLoop_inv size (0, 0) OBSTACLE rng prof.obstacles r2.2.2 r2.1
    ([(0, 0), ((size : Int) - 1, (size : Int) - 1)] ++ r1.2.1 ++ r2.2.1) []
    (by rw [List.append_nil]; exact h2.1)
  rw [← hr3] at h3
  have h4 := placeLoop_inv size (0, 0) TRAP rng prof.traps r3.2.2 r3.1
    ([(0, 0), ((size : Int) - 1, (size : Int) - 1)] ++ r1.2.1 ++ r2.2.1
      ++ r3.2.1) [] (by rw [List.append_nil]; exact h3.1)
  rw [← hr4] at h4
  have h5 := placeLoop_inv size (0, 0) TELEPORT rng prof.teleports r4.2.2 r4.1
    ([(0, 0), ((size : Int) - 1, (size : Int) - 1)] ++ r1.2.1 ++ r2.2.1
      ++ r3.2.1 ++ r4.2.1) [] (by rw [List.append_nil]; exact h4.1)
  rw [← hr5] at h5
  refine ⟨h5.1, ?_, ?_, ?_, ?_, ?_⟩
  · have := h1.2
    simp only [List.length_nil] at this
    omega
  · have := h2.2
    simp only [List.length_nil] at this
    omega
  · have := h3.2
    simp only [List.length_nil] at this
    omega
  · have := h4.2
    simp only [List.length_nil] at this
    omega
  · have := h5.2
    simp only [List.length_nil] at this
    omega

/-! ## wumpus3.py : `generate_custom_grid` -/

/-- The `while True` wumpus draw of `generate_custom_grid` (`wumpus3.py`
lines 113-118): redraw until the cell differs from the agent, the gold
and every wumpus placed so far.  The source loop is unbounded, so the
embedding carries a fuel and returns `none` when the stream never
yields an acceptable cell. -/
def w3DrawWumpus (agent gold : Cell) (wps : List Cell)
    (draws : Nat → Cell) : Nat → Nat → Option (Cell × Nat)
  | 0, _ => none
  | fuel + 1, k =>
    if draws k ≠ agent ∧ draws k ≠ gold ∧ draws k ∉ wps
    then some (draws k, k + 1)
    else w3DrawWumpus agent gold wps draws fuel (k + 1)

/-- The `for _ in range(num_wumpus)` loop of `generate_custom_grid`. -/
def w3Wumpuses (agent gold : Cell) (draws : Nat → Cell) (fuel : Nat) :
    Nat → Nat → List Cell → Option (List Cell × Nat)
  | 0, k, acc => some (acc, k)
  | cnt + 1, k, acc =>
    match w3DrawWumpus agent gold acc draws fuel k with
    | some (pos, kn) => w3Wumpuses agent gold draws fuel cnt kn (acc ++ [pos])
    | none => none

/-- One pit placement of `generate_custom_grid` (`wumpus3.py` lines
121-130): at most 100 attempts, the candidate must avoid the agent, the
gold, every wumpus and every pit placed so far; failure skips the pit. -/
def w3DrawPit (agent gold : Cell) (wps pps : List Cell)
    (draws : Nat → Cell) : Nat → Nat → Option Cell × Nat
  | 0, k => (none, k)
  | fuel + 1, k =>
    if draws k ≠ agent ∧ draws k ≠ gold ∧ draws k ∉ wps ∧ draws k ∉ pps
    then (some (draws k), k + 1)
    else w3DrawPit agent gold wps pps draws fuel (k + 1)

/-- The `for _ in range(num_pits)` loop of `generate_custom_grid`. -/
def w3Pits (agent gold : Cell) (wps : List Cell) (draws : Nat → Cell) :
    Nat → Nat → List Cell → List Cell × Nat
  | 0, k, acc => (acc, k)
  | cnt + 1, k, acc =>
    match w3DrawPit agent gold wps acc draws 100 k with
    | (some pos, kn) => w3Pits agent gold wps draws cnt kn (acc ++ [pos])
    | (none, kn) => w3Pits agent gold wps draws cnt kn acc

/-- `generate_custom_grid` of `wumpus3.py` (lines 98-146), after position
parsing: place the requested wumpuses (unbounded redraws, hence the fuel
and the `Option`), then the pits (100 attempts each, shortfall allowed),
then write agent, gold, wumpuses and pits into an empty grid. -/
def generate_custom_grid (agent gold : Cell) (numW numP : Nat)
    (draws : Nat → Cell) (fuel : Nat) :
    Option (Grid × Cell × Cell × List Cell × List Cell) :=
  match w3Wumpuses agent gold draws fuel numW 0 [] with
  | none => none
  | some (wps, k) =>
    let pr := w3Pits agent gold wps draws numP k []
    let g1 := gset (gset (fun _ _ => EMPTY) agent AGENT) gold GOLD
    let g2 := wps.foldl (fun g p => gset g p WUMPUS) g1
    let g3 := pr.1.foldl (fun g p => gset g p PIT) g2
    some (g3, agent, gold, wps, pr.1)

theorem w3DrawWumpus_spec (agent gold : Cell) (wps : List Cell)
    (draws : Nat → Cell) :
    ∀ (fuel k : Nat) (pos : Cell) (kn : Nat),
      w3DrawWumpus agent gold wps draws fuel k = some (pos, kn) →
      pos ≠ agent ∧ pos ≠ gold ∧ pos ∉ wps
  | 0, k, pos, kn => by
    intro h
    simp [w3DrawWumpus] at h
  | fuel + 1, k, pos, kn => by
    intro h
    rw [w3DrawWumpus] at h
    by_cases hc : draws k ≠ agent ∧ draws k ≠ gold ∧ draws k ∉ wps
    · rw [if_pos hc] at h
      have hp := Option.some.inj h
      have hpos : draws k = pos := (Prod.mk.inj hp).1
      rw [← hpos]
      exact hc
    · rw [if_neg hc] at h
      exact w3DrawWumpus_spec agent gold wps draws fuel (k + 1) pos kn h

theorem w3Wumpuses_inv (agent gold : Cell) (draws : Nat → Cell)
    (fuel : Nat) :
    ∀ (cnt k : Nat) (acc : List Cell), ([agent, gold] ++ acc).Nodup →
      ∀ (wps : List Cell) (kn : Nat),
        w3Wumpuses agent gold draws fuel cnt k acc = some (wps, kn) →
        ([agent, gold] ++ wps).Nodup ∧ wps.length ≤ acc.length + cnt
  | 0, k, acc => by
    intro hnd wps kn h
    rw [w3Wumpuses] at h
    have hp := Option.some.inj h
    have hw : acc = wps := (Prod.mk.inj hp).1
    rw [← hw]
    exact ⟨hnd, Nat.le_add_right acc.length 0⟩
  | cnt + 1, k, acc => by
    intro hnd wps kn h
    rw [w3Wumpuses] at h
    cases hd : w3DrawWumpus agent gold acc draws fuel k with
    | none =>
      rw [hd] at h
      cases h
    | some pk =>
      obtain ⟨pos, kd⟩ := pk
      rw [hd] at h
      obtain ⟨hp1, hp2, hp3⟩ :=
        w3DrawWumpus_spec agent gold acc draws fuel k pos kd hd
      have hnd2 : ([agent, gold] ++ (acc ++ [pos])).Nodup := by
        rw [← List.append_assoc]
        have hnm : pos ∉ [agent, gold] ++ acc := by
          intro hm
          rcases List.mem_append.mp hm with hm1 | hm1
          · rcases List.mem_cons.mp hm1 with he | he
            · exact hp1 he
            · exact hp2 (List.mem_singleton.mp he)
          · exact hp3 hm1
        have hcc := List.Nodup.concat hnm hnd
        rw [List.concat_eq_append] at hcc
        exact hcc
      obtain ⟨i1, i2⟩ := w3Wumpuses_inv agent gold draws fuel cnt kd
        (acc ++ [pos]) hnd2 wps kn h
      refine ⟨i1, ?_⟩
      rw [List.length_append, List.length_singleton] at i2
      omega

theorem w3DrawPit_spec (agent gold : Cell) (wps pps : List Cell)
    (draws : Nat → Cell) :
    ∀ (fuel k : Nat) (pos : Cell) (kn : Nat),
      w3DrawPit agent gold wps pps draws fuel k = (some pos, kn) →
      pos ≠ agent ∧ pos ≠ gold ∧ pos ∉ wps ∧ pos ∉ pps
  | 0, k, pos, kn => by
    intro h
    simp [w3DrawPit] at h
  | fuel + 1, k, pos, kn => by
    intro h
    rw [w3DrawPit] at h
    by_cases hc : draws k ≠ agent ∧ draws k ≠ gold ∧ draws k ∉ wps ∧
        draws k ∉ pps
    · rw [if_pos hc] at h
      have hpos : draws k = pos :=
        Option.some.inj (Prod.mk.inj h).1
      rw [← hpos]
      exact hc
    · rw [if_neg hc] at h
      exact w3DrawPit_spec agent gold wps pps draws fuel (k + 1) pos kn h

theorem w3Pits_inv (agent gold : Cell) (wps : List Cell)
    (draws : Nat → Cell) :
    ∀ (cnt k : Nat) (acc : List Cell),
      ([agent, gold] ++ wps ++ acc).Nodup →
      ([agent, gold] ++ wps ++
        (w3Pits agent gold wps draws cnt k acc).1).Nodup ∧
      (w3Pits agent gold wps draws cnt k acc).1.length ≤ acc.length + cnt
  | 0, k, acc => fun h => ⟨h, Nat.le_add_right acc.length 0⟩
  | cnt + 1, k, acc => by
    intro hnd
    cases hd : w3DrawPit agent gold wps acc draws 100 k with
    | mk o kd =>
      cases o with
      | some pos =>
        have heq : w3Pits agent gold wps draws (cnt + 1) k acc =
            w3Pits agent gold wps draws cnt kd (acc ++ [pos]) := by
          rw [w3Pits, hd]
        obtain ⟨hp1, hp2, hp3, hp4⟩ :=
          w3DrawPit_spec agent gold wps acc draws 100 k pos kd hd
        have hnd2 : ([agent, gold] ++ wps ++ (acc ++ [pos])).Nodup := by
          rw [← List.append_assoc]
          have hnm : pos ∉ [agent, gold] ++ wps ++ acc := by
            intro hm
            rcases List.mem_append.mp hm with hm1 | hm1
            · rcases List.mem_append.mp hm1 with hm2 | hm2
              · rcases List.mem_cons.mp hm2 with he | he
                · exact hp1 he
                · exact hp2 (List.mem_singleton.mp he)
              · exact hp3 hm2
            · exact hp4 hm1
          have hcc := List.Nodup.concat hnm hnd
          rw [List.concat_eq_append] at hcc
          exact hcc
        obtain ⟨i1, i2⟩ := w3Pits_inv agent gold wps draws cnt kd
          (acc ++ [pos]) hnd2
        rw [heq]
        refine ⟨i1, ?_⟩
        rw [List.length_append, List.length_singleton] at i2
        omega
      | none =>
        have heq : w3Pits agent gold wps draws (cnt + 1) k acc =
            w3Pits agent gold wps draws cnt kd acc := by
          rw [w3Pits, hd]
        obtain ⟨i1, i2⟩ := w3Pits_inv agent gold wps draws cnt kd acc hnd
        rw [heq]
        exact ⟨i1, by omega⟩

theorem generate_custom_grid_inv (agent gold : Cell) (numW numP : Nat)
    (draws : Nat → Cell) (fuel : Nat) (hne : agent ≠ gold)
    (g : Grid) (a go : Cell) (wps pps : List Cell)
    (h : generate_custom_grid agent gold numW numP draws fuel =
      some (g, a, go, wps, pps)) :
    ([agent, gold] ++ wps ++ pps).Nodup ∧ wps.length ≤ numW ∧
      pps.length ≤ numP := by
  unfold generate_custom_grid at h
  cases hw : w3Wumpuses agent gold draws fuel numW 0 [] with
  | none =>
    rw [hw] at h
    cases h
  | some wk =>
    obtain ⟨wps0, k0⟩ := wk
    rw [hw] at h
    have hbase : ([agent, gold] ++ ([] : List Cell)).Nodup := by
      rw [List.append_nil]
      refine List.nodup_cons.mpr ⟨?_, List.nodup_singleton _⟩
      rw [List.mem_singleton]
      exact hne
    obtain ⟨j1, j2⟩ := w3Wumpuses_inv agent gold draws fuel numW 0 [] hbase
      wps0 k0 hw
    obtain ⟨i1, i2⟩ := w3Pits_inv agent gold wps0 draws numP k0 []
      (by rw [List.append_nil]; exact j1)
    have hp := Option.some.inj h
    have hwps : wps0 = wps := (Prod.mk.inj (Prod.mk.inj (Prod.mk.inj
      (Prod.mk.inj hp).2).2).2).1
    have hpps : (w3Pits agent gold wps0 draws numP k0 []).1 = pps :=
      (Prod.mk.inj (Prod.mk.inj (Prod.mk.inj (Prod.mk.inj hp).2).2).2).2
    rw [← hwps, ← hpps]
    refine ⟨i1, ?_, ?_⟩
    · simpa using j2
    · simpa using i2

/-! ## Replay driver lemmas -/

theorem gget_gset (g : Grid) (c : Cell) (e : Entity) (c' : Cell) :
    gget (gset g c e) c' = if c' = c then e else gget g c' := by
  unfold gget gset
  by_cases h : c'.1 = c.1 ∧ c'.2 = c.2
  · rw [if_pos h, if_pos (Prod.ext h.1 h.2)]
  · rw [if_neg h, if_neg (fun hc => h (by rw [hc]; exact ⟨rfl, rfl⟩))]

theorem updateTick_teleport (tm : List (Cell × Cell)) (st : RState)
    (P T D : Cell) (rest : List (Cell × Cell × Entity))
    (hanims : st.anims = (P, T, AGENT) :: rest)
    (hT : gget st.grid T = TELEPORT)
    (hTa : T ≠ st.agent)
    (htm : lookupA tm T = some D) :
    (updateTick tm st).agent = T ∧
    (updateTick tm st).anims = (T, T, TELEPORT) :: (T, D, AGENT) :: rest ∧
    (updateTick tm st).steps = st.steps + 1 := by
  unfold updateTick
  rw [hanims]
  dsimp only
  rw [if_pos rfl]
  unfold agentArrive
  dsimp only
  have he : gget (gset st.grid st.agent TRAIL) T = TELEPORT := by
    rw [gget_gset, if_neg hTa]
    exact hT
  rw [he]
  rw [if_neg (by decide), if_neg (by decide), if_pos rfl, htm]
  exact ⟨rfl, rfl, rfl⟩

/-! ## Grids without pits, obstacles or teleports: the two pathfinders
agree on passability -/

/-- A grid holding no `PIT`, `OBSTACLE` or `TELEPORT` anywhere. -/
def NoPitObsTele (g : Grid) : Prop :=
  ∀ c : Cell, gget g c ≠ PIT ∧ gget g c ≠ OBSTACLE ∧ gget g c ≠ TELEPORT

theorem clean_ok (g : Grid) (h : NoPitObsTele g) (n : Nat) (c : Cell) :
    a_ok n g c ↔ w3_ok n g c := by
  unfold a_ok w3_ok a_passable w3_passable
  obtain ⟨h1, h2, _⟩ := h c
  constructor
  · rintro ⟨hb, _, hw⟩
    exact ⟨hb, h1, hw⟩
  · rintro ⟨hb, _, hw⟩
    exact ⟨hb, h2, hw⟩

theorem clean_chain (g : Grid) (h : NoPitObsTele g) (n : Nat) :
    ∀ p : List Cell, a_chain n g p ↔ w3_chain n g p
  | [] => Iff.rfl
  | [_] => Iff.rfl
  | a :: b :: rest => by
    rw [a_chain, w3_chain]
    rw [clean_ok g h n b, clean_chain g h n (b :: rest)]

theorem clean_valid (g : Grid) (h : NoPitObsTele g) (n : Nat) (s t : Cell)
    (p : List Cell) : AValidPath n g s t p ↔ ValidPath n g s t p := by
  unfold AValidPath ValidPath
  rw [clean_chain g h n p]

theorem clean_reach (g : Grid) (h : NoPitObsTele g) (n : Nat) (s t : Cell) :
    AReach n g s t ↔ W3Reach n g s t := by
  unfold AReach W3Reach
  constructor
  · rintro ⟨p, hp⟩
    exact ⟨p, (clean_valid g h n s t p).mp hp⟩
  · rintro ⟨p, hp⟩
    exact ⟨p, (clean_valid g h n s t p).mpr hp⟩

theorem bfs_le_astar (n : Nat) (g : Grid) (s t : Cell)
    (hclean : NoPitObsTele g) (hreach : W3Reach n g s t) :
    (bfs_search n g s t).length ≤ (calculate_path n g s t).length := by
  have hA : AReach n g s t := (clean_reach g hclean n s t).mpr hreach
  have hne := calculate_path_complete n g s t hA
  have hval := calculate_path_sound n g s t hne
  have hvalW : ValidPath n g s t (calculate_path n g s t) :=
    (clean_valid g hclean n s t _).mp hval
  exact (bfs_search_shortest n g s t hreach).2 _ hvalW

/-! ## Helper facts for the concrete scenarios -/

theorem w3_unreachable_of_empty (n : Nat) (g : Grid) (s t : Cell)
    (h : bfs_search n g s t = []) : ¬ W3Reach n g s t := by
  intro hr
  obtain ⟨hv, _⟩ := bfs_search_shortest n g s t hr
  rw [h] at hv
  exact valid_nonempty n g s t [] hv rfl

theorem snake_unreachable_of_miss (snake : List Cell) (food : Cell)
    (hstart : snake.headI ∈ snake)
    (h : followDirs snake.headI (snake_bfs snake food) ≠ food) :
    ¬ SnakeReach snake snake.headI food :=
  fun hr => h (snake_bfs_shortest snake food hstart hr).2.1

/-- A snake whose body surrounds its head: no legal move exists. -/
def snakeEnclosed : List Cell :=
  [(20, 20), (0, 20), (40, 20), (20, 0), (20, 40)]

/-- The replay scenario advanced `k` ticks from `replayStart`. -/
def replayTicks : Nat → RState
  | 0 => replayStart
  | k + 1 => updateTick tmPair (replayTicks k)

theorem calc_path_C6_eval : calculate_path 5 gridC6 (0, 0) (4, 4) =
    [(0, 0), (0, 1), (0, 2), (0, 3), (0, 4), (1, 4), (2, 4), (3, 4),
      (4, 4)] :=
  calculate_path_eval 5 gridC6 (0, 0) (4, 4) 30 _ (by decide)

theorem calc_path_sub_eval : calculate_path 5 gridAstarSub (2, 4) (1, 0) =
    [(2, 4), (1, 4), (1, 3), (1, 2), (2, 2), (2, 1), (2, 0), (1, 0)] :=
  calculate_path_eval 5 gridAstarSub (2, 4) (1, 0) 20 _ (by decide)

theorem calc_path_detour_eval :
    calculate_path 3 gridPitDetour (0, 0) (0, 2) = [(0, 0), (0, 1), (0, 2)] :=
  calculate_path_eval 3 gridPitDetour (0, 0) (0, 2) 20 _ (by decide)

/-! ## The claims -/

/-- C1: for every grid and reachable (start, goal) pair, the wumpus3
`bfs_search` returns a valid path whose cell count is minimal among all
valid passable-cell paths; and the snake `bfs_search` returns a legal
move list reaching the food whose length is minimal among all legal move
lists reaching it. -/
theorem C1_bfs_shortest :
    (∀ (n : Nat) (g : Grid) (s t : Cell), W3Reach n g s t →
      ValidPath n g s t (bfs_search n g s t) ∧
      ∀ p, ValidPath n g s t p → (bfs_search n g s t).length ≤ p.length) ∧
    (∀ (snake : List Cell) (food : Cell), snake.headI ∈ snake →
      SnakeReach snake snake.headI food →
      snakeChainOk snake snake.headI (snake_bfs snake food) ∧
      followDirs snake.headI (snake_bfs snake food) = food ∧
      ∀ ds, snakeChainOk snake snake.headI ds →
        followDirs snake.headI ds = food →
        (snake_bfs snake food).length ≤ ds.length) :=
  ⟨bfs_search_shortest, snake_bfs_shortest⟩

/-- Witness for C1: both shortest-path statements applied on concrete
reachable scenes. -/
theorem C1_bfs_shortest_witness :
    W3Reach 3 gridEmpty (0, 0) (0, 2) ∧
    ValidPath 3 gridEmpty (0, 0) (0, 2)
      (bfs_search 3 gridEmpty (0, 0) (0, 2)) ∧
    SnakeReach [((0 : Int), (0 : Int))]
      ([((0 : Int), (0 : Int))] : List Cell).headI (20, 0) ∧
    followDirs ([((0 : Int), (0 : Int))] : List Cell).headI
      (snake_bfs [((0 : Int), (0 : Int))] (20, 0)) = (20, 0) := by
  have h1 : W3Reach 3 gridEmpty (0, 0) (0, 2) :=
    ⟨[(0, 0), (0, 1), (0, 2)], by decide⟩
  have h2 : SnakeReach [((0 : Int), (0 : Int))]
      ([((0 : Int), (0 : Int))] : List Cell).headI (20, 0) :=
    ⟨[SnakeDir.RIGHT], by decide, by decide⟩
  exact ⟨h1, (C1_bfs_shortest.1 3 gridEmpty (0, 0) (0, 2) h1).1, h2,
    (C1_bfs_shortest.2 [(0, 0)] (20, 0) (by decide) h2).2.1⟩

/-- C2: the A* of wumpus4 may step onto a cell iff it is adjacent, in
bounds and holds neither `OBSTACLE` nor `WUMPUS`; the wumpus3 BFS instead
may step onto a cell iff it is adjacent, in bounds and holds neither
`PIT` nor `WUMPUS` — so only the A* matches the claimed
Obstacle/Wumpus-blocking rule, while the wumpus3 BFS walks through
obstacles and is blocked by pits. -/
theorem C2_blocking (n : Nat) (g : Grid) (c w : Cell) :
    (w ∈ get_neighbors n g c ↔
      adjStep c w ∧ inB n w ∧ gget g w ≠ OBSTACLE ∧ gget g w ≠ WUMPUS) ∧
    (w ∈ w3_neighbors n g c ↔
      adjStep c w ∧ inB n w ∧ gget g w ≠ PIT ∧ gget g w ≠ WUMPUS) :=
  ⟨get_neighbors_mem n g c w, w3_neighbors_mem n g c w⟩

/-- Counterexample to C2 as claimed: the wumpus3 BFS walks straight
through an `OBSTACLE` cell, and returns no path when only `PIT` cells
(claimed traversable) separate start and goal. -/
theorem C2_counterexample :
    gget gridObstacleRow (0, 1) = OBSTACLE ∧
    bfs_search 3 gridObstacleRow (0, 0) (0, 2) = [(0, 0), (0, 1), (0, 2)] ∧
    gget gridPitWall (0, 1) = PIT ∧
    bfs_search 3 gridPitWall (0, 0) (0, 2) = [] := by decide

/-- C3 (amended): A* returns a valid Obstacle/Wumpus-avoiding path
whenever one exists and the empty path exactly when none does; on grids
without Teleport, Pit and Obstacle cells the BFS path is no longer than
the A* path.  The claimed cost optimality and exact length equality are
refuted by `C3_counterexample`. -/
theorem C3_astar_amended :
    (∀ (n : Nat) (g : Grid) (s t : Cell),
      (calculate_path n g s t = [] → ¬ AReach n g s t) ∧
      (calculate_path n g s t ≠ [] →
        AValidPath n g s t (calculate_path n g s t))) ∧
    (∀ (n : Nat) (g : Grid) (s t : Cell), NoPitObsTele g →
      W3Reach n g s t →
      (bfs_search n g s t).length ≤ (calculate_path n g s t).length) :=
  ⟨calculate_path_spec, bfs_le_astar⟩

/-- Witness for C3: the amended statement applied on a concrete empty
3 by 3 scene. -/
theorem C3_astar_amended_witness :
    AValidPath 3 gridEmpty (0, 0) (0, 2)
      (calculate_path 3 gridEmpty (0, 0) (0, 2)) ∧
    (bfs_search 3 gridEmpty (0, 0) (0, 2)).length ≤
      (calculate_path 3 gridEmpty (0, 0) (0, 2)).length := by
  have hclean : NoPitObsTele gridEmpty := fun c =>
    ⟨fun h => Entity.noConfusion h, fun h => Entity.noConfusion h,
     fun h => Entity.noConfusion h⟩
  have hA : AReach 3 gridEmpty (0, 0) (0, 2) :=
    ⟨[(0, 0), (0, 1), (0, 2)], by decide⟩
  have hne : calculate_path 3 gridEmpty (0, 0) (0, 2) ≠ [] :=
    fun h => (C3_astar_amended.1 3 gridEmpty (0, 0) (0, 2)).1 h hA
  exact ⟨(C3_astar_amended.1 3 gridEmpty (0, 0) (0, 2)).2 hne,
    C3_astar_amended.2 3 gridEmpty (0, 0) (0, 2) hclean
      ⟨[(0, 0), (0, 1), (0, 2)], by decide⟩⟩

/-- Counterexample to C3 as claimed: on `gridAstarSub` the A* returns a
path of scored cost 8 although a valid path of cost 7 exists (so its
cost is not minimal), and on the teleport-free `gridPitDetour` the A*
path has 3 cells while the BFS path has 5 (so the lengths differ). -/
theorem C3_counterexample :
    pathCost gridAstarSub (calculate_path 5 gridAstarSub (2, 4) (1, 0)) = 8 ∧
    AValidPath 5 gridAstarSub (2, 4) (1, 0)
      [(2, 4), (3, 4), (3, 3), (3, 2), (3, 1), (3, 0), (2, 0), (1, 0)] ∧
    pathCost gridAstarSub
      [(2, 4), (3, 4), (3, 3), (3, 2), (3, 1), (3, 0), (2, 0), (1, 0)] = 7 ∧
    (∀ c : Cell, gget gridPitDetour c ≠ TELEPORT) ∧
    (calculate_path 3 gridPitDetour (0, 0) (0, 2)).length = 3 ∧
    (bfs_search 3 gridPitDetour (0, 0) (0, 2)).length = 5 := by
  refine ⟨?_, by decide, by decide, ?_, ?_, by decide⟩
  · rw [calc_path_sub_eval]
    decide
  · intro c
    unfold gget gridPitDetour
    split
    · exact fun h => Entity.noConfusion h
    · exact fun h => Entity.noConfusion h
  · rw [calc_path_detour_eval]
    decide

/-- C4: in the A* of wumpus4, a move onto a `TELEPORT` cell costs
exactly 2 and every other move costs exactly 1; the cost depends only on
the entity at the destination cell, never on the teleport pairing. -/
theorem C4_edge_costs (g : Grid) (c : Cell) :
    (gget g c = TELEPORT → stepW g c = 2) ∧
    (gget g c ≠ TELEPORT → stepW g c = 1) := by
  unfold stepW teleport_penalty
  exact ⟨fun h => by rw [if_pos h], fun h => by rw [if_neg h]⟩

/-- Witness for C4: both edge costs realised on a concrete grid. -/
theorem C4_edge_costs_witness :
    stepW gridTeleportPair (1, 1) = 2 ∧ stepW gridTeleportPair (0, 0) = 1 :=
  ⟨(C4_edge_costs gridTeleportPair (1, 1)).1 (by decide),
   (C4_edge_costs gridTeleportPair (0, 0)).2 (by decide)⟩

/-- C5 (amended): on start = goal the wumpus3 BFS returns the single-cell
path `[start]` (not the empty path), while the snake BFS returns the
empty move list; both return the empty sequence on an unreachable goal,
and both are total functions (no exception). -/
theorem C5_empty_behaviour :
    (∀ (n : Nat) (g : Grid) (s : Cell), bfs_search n g s s = [s]) ∧
    (∀ (n : Nat) (g : Grid) (s t : Cell), ¬ W3Reach n g s t →
      bfs_search n g s t = []) ∧
    (∀ snake : List Cell, snake_bfs snake snake.headI = []) ∧
    (∀ (snake : List Cell) (food : Cell),
      ¬ SnakeReach snake snake.headI food → snake_bfs snake food = []) :=
  ⟨bfs_search_self, bfs_search_unreachable, snake_bfs_self,
    snake_bfs_unreachable⟩

/-- Witness for C5: the four behaviours on concrete scenes. -/
theorem C5_empty_behaviour_witness :
    bfs_search 3 gridEmpty (1, 1) (1, 1) = [(1, 1)] ∧
    bfs_search 3 gridPitWall (0, 0) (0, 2) = [] ∧
    snake_bfs [((5 : Int), (5 : Int))]
      ([((5 : Int), (5 : Int))] : List Cell).headI = [] ∧
    snake_bfs snakeEnclosed (0, 0) = [] :=
  ⟨C5_empty_behaviour.1 3 gridEmpty (1, 1),
   C5_empty_behaviour.2.1 3 gridPitWall (0, 0) (0, 2)
     (w3_unreachable_of_empty 3 gridPitWall (0, 0) (0, 2) (by decide)),
   C5_empty_behaviour.2.2.1 [(5, 5)],
   C5_empty_behaviour.2.2.2 snakeEnclosed (0, 0)
     (snake_unreachable_of_miss snakeEnclosed (0, 0) (by decide)
       (by decide))⟩

/-- Counterexample to C5 as claimed: with start = goal the wumpus3 BFS
returns a non-empty path. -/
theorem C5_counterexample :
    bfs_search 10 gridEmpty (0, 0) (0, 0) ≠ [] ∧
    bfs_search 10 gridEmpty (0, 0) (0, 0) = [(0, 0)] := by decide

/-- C6 (amended): on the spec's 5 by 5 scenario (agent `(0,0)`, goal
`(4,4)`, no obstacles) the BFS path has exactly 9 cells inclusive of both
endpoints — not 8 — and the A* path has the same length. -/
theorem C6_scenario :
    (bfs_search 5 gridC6 (0, 0) (4, 4)).length = 9 ∧
    (calculate_path 5 gridC6 (0, 0) (4, 4)).length = 9 := by
  constructor
  · decide
  · rw [calc_path_C6_eval]
    decide

/-- Counterexample to C6 as claimed: the path does not have 8 cells. -/
theorem C6_counterexample :
    (bfs_search 5 gridC6 (0, 0) (4, 4)).length ≠ 8 := by decide

/-- C7: for every grid, the teleport map built from any shuffle of the
teleport cells is a symmetric, irreflexive pairing between cells that
hold `TELEPORT` in the grid, and an odd teleport count leaves exactly
one teleport cell unpaired. -/
theorem C7_teleport_pairing (n : Nat) (g : Grid) (ts : List Cell)
    (hperm : ts.Perm (teleportPositions n g)) :
    (∀ a b, lookupA (initialize_teleports ts) a = some b →
      b ≠ a ∧ gget g a = TELEPORT ∧ gget g b = TELEPORT ∧
      lookupA (initialize_teleports ts) b = some a) ∧
    (ts.length % 2 = 1 →
      ∃ c, c ∈ ts ∧ lookupA (initialize_teleports ts) c = none ∧
        ∀ d ∈ ts, lookupA (initialize_teleports ts) d = none → d = c) := by
  have hnd : ts.Nodup := hperm.nodup_iff.mpr (teleportPositions_nodup n g)
  constructor
  · intro a b hab
    obtain ⟨ham, hbm⟩ := pairUp_mem ts a b hab
    exact ⟨(pairUp_ne ts hnd a b hab).symm,
      teleportPositions_mem n g a (hperm.mem_iff.mp ham),
      teleportPositions_mem n g b (hperm.mem_iff.mp hbm),
      pairUp_sym ts hnd a b hab⟩
  · intro hodd
    exact pairUp_odd ts hnd hodd

/-- Witness for C7: the pairing of the two teleports of
`gridTeleportPair`. -/
theorem C7_teleport_pairing_witness :
    ([((1 : Int), (1 : Int)), ((3 : Int), (3 : Int))] : List Cell).Perm
      (teleportPositions 4 gridTeleportPair) ∧
    ((3, 3) : Cell) ≠ (1, 1) ∧
    lookupA (initialize_teleports
      [((1 : Int), (1 : Int)), ((3 : Int), (3 : Int))]) (3, 3) =
      some (1, 1) := by
  have hperm : ([((1 : Int), (1 : Int)), ((3 : Int), (3 : Int))] :
      List Cell).Perm (teleportPositions 4 gridTeleportPair) := by
    rw [show teleportPositions 4 gridTeleportPair =
      [((1 : Int), (1 : Int)), ((3 : Int), (3 : Int))] from by decide]
  obtain ⟨h1, _, _, h4⟩ :=
    (C7_teleport_pairing 4 gridTeleportPair _ hperm).1 (1, 1) (3, 3)
      (by decide)
  exact ⟨hperm, h1, h4⟩

/-- C8: the wumpus4 generator places agent, gold, wumpuses, pits,
obstacles, traps and teleports on pairwise distinct cells with each
hazard count at most the profile's, and the wumpus3 custom generator
likewise places wumpuses and pits distinct from each other and from the
agent and the gold, within the requested counts. -/
theorem C8_generation :
    (∀ (size : Nat) (prof : Profile) (rng : Nat → Nat → Cell), 2 ≤ size →
      ([(generate_grid size prof rng).agent,
        (generate_grid size prof rng).gold]
        ++ (generate_grid size prof rng).wumpuses
        ++ (generate_grid size prof rng).pitsPlaced
        ++ (generate_grid size prof rng).obstaclesPlaced
        ++ (generate_grid size prof rng).trapsPlaced
        ++ (generate_grid size prof rng).teleportsPlaced).Nodup ∧
      (generate_grid size prof rng).wumpuses.length ≤ prof.wumpus ∧
      (generate_grid size prof rng).pitsPlaced.length ≤ prof.pits ∧
      (generate_grid size prof rng).obstaclesPlaced.length ≤
        prof.obstacles ∧
      (generate_grid size prof rng).trapsPlaced.length ≤ prof.traps ∧
      (generate_grid size prof rng).teleportsPlaced.length ≤
        prof.teleports) ∧
    (∀ (agent gold : Cell) (numW numP : Nat) (draws : Nat → Cell)
      (fuel : Nat) (g : Grid) (a go : Cell) (wps pps : List Cell),
      agent ≠ gold →
      generate_custom_grid agent gold numW numP draws fuel =
        some (g, a, go, wps, pps) →
      ([agent, gold] ++ wps ++ pps).Nodup ∧ wps.length ≤ numW ∧
        pps.length ≤ numP) :=
  ⟨generate_grid_inv,
   fun agent gold numW numP draws fuel g a go wps pps h1 h2 =>
     generate_custom_grid_inv agent gold numW numP draws fuel h1 g a go
       wps pps h2⟩

/-- Witness for C8: both generators on concrete inputs. -/
theorem C8_generation_witness :
    (generate_grid 3 ⟨1, 1, 1, 1, 1⟩ (fun _ _ => (1, 1))).wumpuses.length
      ≤ 1 ∧
    (([((0 : Int), (0 : Int)), ((2 : Int), (2 : Int))] : List Cell)
      ++ ([] : List Cell) ++ ([] : List Cell)).Nodup :=
  ⟨(C8_generation.1 3 ⟨1, 1, 1, 1, 1⟩ (fun _ _ => (1, 1)) (by decide)).2.1,
   (C8_generation.2 (0, 0) (2, 2) 0 0 (fun _ => (1, 1)) 1
     (gset (gset (fun _ _ => EMPTY) (0, 0) AGENT) (2, 2) GOLD) (0, 0)
     (2, 2) [] [] (by decide) rfl).1⟩

/-- C9 (amended): completing a move onto a paired `TELEPORT` cell emits
the teleport ripple and synthesizes exactly one second pending move to
the paired destination, so the one logical step produces two sequential
observable arrivals; the continuation, however, resumes from the
teleport cell (the destination's own pairing bounces the agent back), as
`C9_counterexample` shows. -/
theorem C9_replay_teleport (tm : List (Cell × Cell)) (st : RState)
    (P T D : Cell) (rest : List (Cell × Cell × Entity))
    (hanims : st.anims = (P, T, AGENT) :: rest)
    (hT : gget st.grid T = TELEPORT)
    (hTa : T ≠ st.agent)
    (htm : lookupA tm T = some D) :
    (updateTick tm st).agent = T ∧
    (updateTick tm st).anims = (T, T, TELEPORT) :: (T, D, AGENT) :: rest ∧
    (updateTick tm st).steps = st.steps + 1 :=
  updateTick_teleport tm st P T D rest hanims hT hTa htm

/-- Witness for C9: the teleport arrival of the spec's replay scenario. -/
theorem C9_replay_teleport_witness :
    (updateTick tmPair replayStart).agent = (1, 1) ∧
    (updateTick tmPair replayStart).anims =
      [((1, 1), (1, 1), TELEPORT), ((1, 1), (3, 3), AGENT)] ∧
    (updateTick tmPair replayStart).steps = 1 :=
  C9_replay_teleport tmPair replayStart (1, 0) (1, 1) (3, 3) []
    (by decide) (by decide) (by decide) (by decide)

/-- Counterexample to C9 as claimed: after the two observable arrivals
(teleport cell at tick 1, destination at tick 3) the destination's own
pairing sends the agent back, so by tick 5 the agent is again on the
teleport cell `(1,1)` with three counted steps, and the next scheduled
move continues from `(1,1)` — not from the destination `(3,3)`. -/
theorem C9_counterexample :
    (replayTicks 1).agent = (1, 1) ∧
    (replayTicks 1).anims =
      [((1, 1), (1, 1), TELEPORT), ((1, 1), (3, 3), AGENT)] ∧
    (replayTicks 3).agent = (3, 3) ∧
    (replayTicks 5).agent = (1, 1) ∧
    (replayTicks 5).steps = 3 ∧
    (replayTicks 5).anims = [] ∧
    (replayTicks 6).anims = [((1, 1), (1, 2), AGENT)] := by decide

/-- C10: both BFS loops terminate on the stated fuel for every input:
the fuelled loop returns `some` result (a path or the empty list), so
the frontier queue empties after finitely many iterations. -/
theorem C10_termination :
    (∀ (n : Nat) (g : Grid) (s t : Cell),
      ∃ r, bfsAux n g t (w3_fuel n) [(s, [])] ∅ = some r) ∧
    (∀ (snake : List Cell) (food : Cell),
      ∃ r, snakeAux snake food snake_fuel [(snake.headI, [])] ∅ = some r) :=
  ⟨bfs_search_total, snake_bfs_total⟩
